import Mathlib

/-!
Verification development for the QtVirtualTableWidget repository.

The development shallowly embeds the two core components of the repository:

* `VirtualTableModel` (src/VirtualTable/VirtualTableModel.cpp): a block-based
  virtual paging cache.  Qt containers are modelled as association lists
  (`QHash` lookup, insert-or-replace, remove), `QDateTime::currentMSecsSinceEpoch`
  as a strictly increasing logical clock stored in the state, and the
  asynchronous `QtConcurrent` load of a block as a pending entry in the load
  task table; the completion slot `onBlockLoaded` is a separate transition
  invoked by the environment with the loaded rows.  `std::sort` (used with a
  strict comparator on access times in `cleanupBlocks`) is modelled by
  `List.insertionSort`; the two agree on every input whose access times are
  pairwise distinct, which the theorems below assume where the order matters.
  C++ `int` arithmetic is modelled by `Int` with truncated division
  (`Int.tdiv` / `Int.tmod`), matching C++ `/` and `%`.

* `CsvDataSource` (src/VirtualTable/CsvDataSource.cpp): a line-indexed CSV
  reader with an LRU row cache.  The memory-mapped file is modelled as the
  list of its bytes (claims only use ASCII content, for which
  `QString::fromUtf8` is the identity on the listed characters), `m_file.map`
  as direct access to that list (the failure/fallback branches are
  environment-dependent and never taken in the modelled runs), and the
  C++ `while` loops as fuelled structural recursions invoked with provably
  sufficient fuel (each loop advances its offset by at least one byte per
  iteration and is bounded by the file size).
-/

namespace VTable


/-- A `QVariant` cell as produced by the CSV reader and stored in data
blocks: either the null/empty variant `QVariant()` or a `QString` value. -/
inductive QVariant where
  | null : QVariant
  | str : String → QVariant
deriving DecidableEq, Repr

/-- A table row: `QList<QVariant>`. -/
abbrev Row := List QVariant

/-- `QHash`/`QMap` lookup on an association list (`m.find(k)`). -/
def findEntry (k : Int) : List (Int × β) → Option β
  | [] => none
  | p :: rest => if p.1 = k then some p.2 else findEntry k rest

/-- Whether an association list has an entry for key `k` (`m.contains(k)`). -/
def hasKey (k : Int) (m : List (Int × β)) : Bool :=
  (findEntry k m).isSome

/-- `QHash` insert-or-replace (`m[k] = v`): replaces the value at an existing
key, otherwise appends a fresh entry. -/
def hashInsert (k : Int) (v : β) (m : List (Int × β)) : List (Int × β) :=
  if hasKey k m then m.map (fun p => if p.1 = k then (k, v) else p)
  else m ++ [(k, v)]

/-- `QHash` removal (`m.remove(k)`). -/
def hashRemove (k : Int) (m : List (Int × β)) : List (Int × β) :=
  m.filter (fun p => p.1 ≠ k)

/-- The `for (int b = lo; b <= hi; ++b)` iteration domain. -/
def intRange (lo hi : Int) : List Int :=
  (List.range (hi + 1 - lo).toNat).map (fun (i : Nat) => lo + (i : Int))

/-- `PreloadPolicy` (VirtualTableModel.h). -/
inductive PreloadPolicy where
  | Conservative | Balanced | Aggressive
deriving DecidableEq, Repr

/-- `LoadingStatus` (VirtualTableModel.h). -/
inductive LoadingStatus where
  | Idle | LoadingVisible | LoadingPreload | LoadingAll
deriving DecidableEq, Repr

/-- `DataBlock` (VirtualTableModel.h): one cache unit of the paging model. -/
structure DataBlock where
  startRow : Int
  count : Int
  data : List Row
  isValid : Bool
  lastAccessTime : Nat
deriving DecidableEq, Repr

/-- The `DataSource` interface as the block cache sees it: `loadData` results
arrive through `onBlockLoaded` transitions, so only the row/column counts are
state. -/
structure Source where
  rowCount : Int
  columnCount : Int
deriving DecidableEq, Repr

/-- The state of a `VirtualTableModel`.  `now` is the logical clock modelling
`QDateTime::currentMSecsSinceEpoch` (strictly increasing across reads);
`loadTasks` maps a block index to the `isRunning` flag of its
`QFutureWatcher`. -/
structure ModelState where
  dataSource : Option Source
  blockSize : Int
  preloadPolicy : PreloadPolicy
  dataBlocks : List (Int × DataBlock)
  loadingStatus : LoadingStatus
  visibleStartRow : Int
  visibleEndRow : Int
  scrollSpeed : ℚ
  preloadBlocksAhead : Int
  preloadBlocksBehind : Int
  loadTasks : List (Int × Bool)
  now : Nat
deriving DecidableEq, Repr

/-- Read the current clock (`QDateTime::currentMSecsSinceEpoch()`), advancing
the logical time so that successive reads are distinct. -/
def tick (st : ModelState) : Nat × ModelState :=
  (st.now, { st with now := st.now + 1 })

/-- `VirtualTableModel::updatePreloadBlockCounts` (VirtualTableModel.cpp
lines 471-488). -/
def updatePreloadBlockCounts (st : ModelState) : ModelState :=
  match st.preloadPolicy with
  | .Conservative => { st with preloadBlocksAhead := 1, preloadBlocksBehind := 0 }
  | .Balanced => { st with preloadBlocksAhead := 2, preloadBlocksBehind := 1 }
  | .Aggressive => { st with preloadBlocksAhead := 5, preloadBlocksBehind := 2 }

/-- The constructor `VirtualTableModel::VirtualTableModel` (lines 8-21). -/
def initialModel : ModelState :=
  updatePreloadBlockCounts
    { dataSource := none, blockSize := 1000, preloadPolicy := .Balanced
      dataBlocks := [], loadingStatus := .Idle
      visibleStartRow := 0, visibleEndRow := 0, scrollSpeed := 0
      preloadBlocksAhead := 2, preloadBlocksBehind := 1
      loadTasks := [], now := 0 }

/-- `VirtualTableModel::getBlockIndex` (lines 285-288): `row / m_blockSize`
with C++ truncated division. -/
def getBlockIndex (row : Int) (st : ModelState) : Int :=
  row.tdiv st.blockSize

/-- `VirtualTableModel::setLoadingStatus` (lines 490-496); the emitted signal
has no state effect. -/
def setLoadingStatus (s : LoadingStatus) (st : ModelState) : ModelState :=
  if st.loadingStatus ≠ s then { st with loadingStatus := s } else st

/-- `VirtualTableModel::setDataSource` (lines 114-123).  Note the source code
emits `loadingStatusChanged(Idle)` without assigning `m_loadingStatus`, so the
status field itself is unchanged. -/
def setDataSource (src : Option Source) (st : ModelState) : ModelState :=
  { st with dataSource := src, dataBlocks := [], loadTasks := [] }

/-- `VirtualTableModel::setBlockSize` (lines 125-137). -/
def setBlockSize (n : Int) (st : ModelState) : ModelState :=
  if n ≤ 0 then st
  else if n ≠ st.blockSize then
    { st with blockSize := n, dataBlocks := [], loadTasks := [] }
  else st

/-- Whether block `b` has a valid (resident) entry in the block store. -/
def blockValidAt (st : ModelState) (b : Int) : Bool :=
  match findEntry b st.dataBlocks with
  | some blk => blk.isValid
  | none => false

/-- Whether block `b` has a running load task (`m_loadTasks.contains` together
with the watcher `isRunning` check). -/
def taskRunningAt (st : ModelState) (b : Int) : Bool :=
  match findEntry b st.loadTasks with
  | some running => running
  | none => false

/-- Update the `lastAccessTime` of block `b` to the current clock value,
advancing the clock. -/
def touchBlock (b : Int) (st : ModelState) : ModelState :=
  let (t, st') := tick st
  { st' with
    dataBlocks := st'.dataBlocks.map
      (fun p => if p.1 = b then (p.1, { p.2 with lastAccessTime := t }) else p) }

/-- `VirtualTableModel::loadBlock` (lines 304-360).  The `priority` argument is
accepted and ignored exactly as in the source.  Scheduling the asynchronous
`QtConcurrent::run` task is modelled by recording a running watcher for the
block in `loadTasks`; the load result arrives later via `onBlockLoaded`. -/
def loadBlock (blockIndex : Int) (_priority : Bool) (st : ModelState) : ModelState :=
  match st.dataSource with
  | none => st
  | some ds =>
    if blockValidAt st blockIndex then touchBlock blockIndex st
    else if taskRunningAt st blockIndex then st
    else
      let startRow := blockIndex * st.blockSize
      if startRow ≥ ds.rowCount then st
      else
        let count :=
          if startRow + st.blockSize > ds.rowCount then ds.rowCount - startRow
          else st.blockSize
        if count ≤ 0 then st
        else { st with loadTasks := hashInsert blockIndex true st.loadTasks }

/-- `VirtualTableModel::getBlock` (lines 290-302) as used by `onBlockLoaded`:
the existing entry for the block, or a fresh invalid placeholder. -/
def getBlockOrNew (blockIndex : Int) (st : ModelState) : DataBlock :=
  match findEntry blockIndex st.dataBlocks with
  | some blk => blk
  | none =>
      { startRow := blockIndex * st.blockSize, count := st.blockSize
        data := [], isValid := false, lastAccessTime := 0 }

/-- The `allVisibleLoaded` recheck loop shared by `setVisibleRange`
(lines 212-220) and `onBlockLoaded` (lines 264-275). -/
def allBlocksValid (lo hi : Int) (st : ModelState) : Bool :=
  (intRange lo hi).all (fun b => blockValidAt st b)

/-- `VirtualTableModel::onBlockLoaded` (lines 242-283): merge a completed
asynchronous load for `blockIndex` into the block store, recheck the visible
blocks, and drop the pending task entry. -/
def onBlockLoaded (blockIndex : Int) (data : List Row) (st : ModelState) : ModelState :=
  match st.dataSource with
  | none => st
  | some _ =>
    let (t, st1) := tick st
    let block := { getBlockOrNew blockIndex st1 with
                   data := data, isValid := true, lastAccessTime := t }
    let st2 := { st1 with dataBlocks := hashInsert blockIndex block st1.dataBlocks }
    let vsb := getBlockIndex st2.visibleStartRow st2
    let veb := getBlockIndex st2.visibleEndRow st2
    let st3 :=
      if allBlocksValid vsb veb st2 ∧ st2.loadingStatus = .LoadingVisible then
        setLoadingStatus .Idle st2
      else st2
    { st3 with loadTasks := hashRemove blockIndex st3.loadTasks }

/-- `VirtualTableModel::calculatePreloadRange` (lines 456-469). -/
def calculatePreloadRange (centerBlockIndex : Int) (st : ModelState) : Int × Int :=
  match st.dataSource with
  | none => (0, 0)
  | some ds =>
    let totalBlocks := (ds.rowCount + st.blockSize - 1).tdiv st.blockSize
    (max 0 (centerBlockIndex - st.preloadBlocksBehind),
     min (totalBlocks - 1) (centerBlockIndex + st.preloadBlocksAhead))

/-- `VirtualTableModel::preloadBlocks` (lines 362-398). -/
def preloadBlocks (centerBlockIndex : Int) (st : ModelState) : ModelState :=
  match st.dataSource with
  | none => st
  | some _ =>
    let r := calculatePreloadRange centerBlockIndex st
    let st1 := if r.1 ≤ r.2 then setLoadingStatus .LoadingPreload st else st
    (intRange r.1 r.2).foldl
      (fun acc b =>
        if ¬ blockValidAt acc b ∧ ¬ taskRunningAt acc b then loadBlock b false acc
        else acc)
      st1

/-- The block-index window `cleanupBlocks` retains structurally: the preload
range around the center block of the current visible range (lines 407-415). -/
def cleanupWindow (st : ModelState) : Int × Int :=
  let vsb := getBlockIndex st.visibleStartRow st
  let veb := getBlockIndex st.visibleEndRow st
  calculatePreloadRange ((vsb + veb).tdiv 2) st

/-- The comparator of the `std::sort` call in `cleanupBlocks` (lines 432-435):
descending order of access time. -/
def timeDesc (a b : Nat × Int) : Prop :=
  b.1 ≤ a.1

instance : DecidableRel timeDesc :=
  fun a b => inferInstanceAs (Decidable (b.1 ≤ a.1))

instance : IsTotal (Nat × Int) timeDesc :=
  ⟨fun a b => le_total b.1 a.1⟩

instance : IsTrans (Nat × Int) timeDesc :=
  ⟨fun _ _ _ h1 h2 => le_trans h2 h1⟩

/-- The block indices of the retained structural window (the `blocksToKeep`
set of `cleanupBlocks` before the recency pass, lines 417-421). -/
def keepWindowList (st : ModelState) : List Int :=
  intRange (cleanupWindow st).1 (cleanupWindow st).2

/-- The `(lastAccessTime, blockIndex)` pairs of the blocks outside the
retained window (`blockAccessTimes`, lines 423-429). -/
def blockAccessTimes (st : ModelState) : List (Nat × Int) :=
  (st.dataBlocks.filter (fun p => ¬ (keepWindowList st).contains p.1)).map
    (fun p => (p.2.lastAccessTime, p.1))

/-- The full retained set of `cleanupBlocks`: the window plus the up to 10
most recently accessed blocks outside it (lines 437-441). -/
def blocksToKeep (st : ModelState) : List Int :=
  keepWindowList st ++
    ((List.insertionSort timeDesc (blockAccessTimes st)).take 10).map Prod.snd

/-- `VirtualTableModel::cleanupBlocks` (lines 400-454).  `std::sort` with the
strict greater-than comparator on access times is modelled by
`List.insertionSort timeDesc`; the two agree whenever the access times are
pairwise distinct. -/
def cleanupBlocks (st : ModelState) : ModelState :=
  match st.dataSource with
  | none => st
  | some _ =>
    if st.dataBlocks.length ≤ 10 then st
    else
      { st with dataBlocks := st.dataBlocks.filter (fun p => (blocksToKeep st).contains p.1) }

/-- `VirtualTableModel::setVisibleRange` (lines 175-225). -/
def setVisibleRange (startRow endRow : Int) (st : ModelState) : ModelState :=
  match st.dataSource with
  | none => st
  | some ds =>
    let s := max 0 startRow
    let e := min (ds.rowCount - 1) endRow
    if s > e then st
    else
      let st1 := { st with visibleStartRow := s, visibleEndRow := e }
      let sb := getBlockIndex s st1
      let eb := getBlockIndex e st1
      let st2 := if sb ≤ eb then setLoadingStatus .LoadingVisible st1 else st1
      let st3 := (intRange sb eb).foldl (fun acc b => loadBlock b true acc) st2
      let st4 := preloadBlocks ((sb + eb).tdiv 2) st3
      let st5 := cleanupBlocks st4
      if allBlocksValid sb eb st5 then setLoadingStatus .Idle st5 else st5

/-- `VirtualTableModel::setScrollSpeed` (lines 227-240). -/
def setScrollSpeed (speed : ℚ) (st : ModelState) : ModelState :=
  let st1 := { st with scrollSpeed := speed }
  if speed > 5000 then
    { st1 with
      preloadBlocksAhead := max 1 (st1.preloadBlocksAhead.tdiv 2)
      preloadBlocksBehind := max 0 (st1.preloadBlocksBehind.tdiv 2) }
  else if speed < 500 ∧ speed > 0 then updatePreloadBlockCounts st1
  else st1

/-- `VirtualTableModel::setPreloadPolicy` (lines 139-152). -/
def setPreloadPolicy (policy : PreloadPolicy) (st : ModelState) : ModelState :=
  if policy ≠ st.preloadPolicy then
    let st1 := updatePreloadBlockCounts { st with preloadPolicy := policy }
    if st1.visibleStartRow ≠ st1.visibleEndRow then
      let centerRow := (st1.visibleStartRow + st1.visibleEndRow).tdiv 2
      preloadBlocks (getBlockIndex centerRow st1) st1
    else st1
  else st

/-- `VirtualTableModel::jumpToRow` (lines 154-168). -/
def jumpToRow (rowIndex : Int) (st : ModelState) : ModelState :=
  match st.dataSource with
  | none => st
  | some ds =>
    if rowIndex < 0 ∨ rowIndex ≥ ds.rowCount then st
    else
      let visibleRows0 := st.visibleEndRow - st.visibleStartRow + 1
      let visibleRows := if visibleRows0 ≤ 0 then 50 else visibleRows0
      let newStartRow := max 0 (rowIndex - visibleRows.tdiv 2)
      let newEndRow := min (ds.rowCount - 1) (newStartRow + visibleRows - 1)
      setVisibleRange newStartRow newEndRow st

/-- The `role` argument of `QAbstractItemModel::data`. -/
inductive ItemRole where
  | display | edit | other
deriving DecidableEq, Repr

/-- `VirtualTableModel::data` (lines 49-90): the cell read.  Returns the
`QVariant` result together with the successor state (access-time update and
the fire-and-forget `loadBlock` are the only state effects).  The function is
total: every input yields a value, no case raises. -/
def dataRead (row col : Int) (role : ItemRole) (st : ModelState) : QVariant × ModelState :=
  match st.dataSource with
  | none => (.null, st)
  | some ds =>
    if row < 0 ∨ row ≥ ds.rowCount ∨ col < 0 ∨ col ≥ ds.columnCount then (.null, st)
    else
      match role with
      | .other => (.null, st)
      | _ =>
        let blockIndex := getBlockIndex row st
        let rowInBlock := row.tmod st.blockSize
        match findEntry blockIndex st.dataBlocks with
        | some blk =>
          if blk.isValid then
            let st1 := touchBlock blockIndex st
            if h1 : rowInBlock.toNat < blk.data.length then
              let rowData := blk.data.get ⟨rowInBlock.toNat, h1⟩
              if h2 : col.toNat < rowData.length then
                (rowData.get ⟨col.toNat, h2⟩, st1)
              else (.str "......", loadBlock blockIndex true st1)
            else (.str "......", loadBlock blockIndex true st1)
          else (.str "......", loadBlock blockIndex true st)
        | none => (.str "......", loadBlock blockIndex true st)

/-! ### CsvDataSource (src/VirtualTable/CsvDataSource.cpp) -/

/-- `QString::trimmed` on a character list: strip leading and trailing
whitespace. -/
def trimChars (l : List Char) : List Char :=
  ((l.dropWhile Char.isWhitespace).reverse.dropWhile Char.isWhitespace).reverse

/-- The character loop of `CsvDataSource::parseLine` (lines 268-302), with the
accumulated result fields, the current field, the in-quotes flag and the
escaped flag. -/
def parseLineAux (delim : Char) : List Char → List String → List Char → Bool → Bool → List String
  | [], result, currentField, _, _ => result ++ [String.mk (trimChars currentField)]
  | c :: rest, result, currentField, inQuotes, escaped =>
    if escaped then parseLineAux delim rest result (currentField ++ [c]) inQuotes false
    else if c = '\\' then parseLineAux delim rest result currentField inQuotes true
    else if c = '"' then parseLineAux delim rest result currentField (!inQuotes) escaped
    else if c = delim ∧ ¬ inQuotes then
      parseLineAux delim rest (result ++ [String.mk (trimChars currentField)]) [] inQuotes escaped
    else parseLineAux delim rest result (currentField ++ [c]) inQuotes escaped

/-- `CsvDataSource::parseLine` (lines 268-302): split one line into trimmed
fields (simplified CSV grammar: backslash escapes, toggling quotes, the
delimiter only outside quotes). -/
def parseLine (delim : Char) (line : List Char) : List QVariant :=
  (parseLineAux delim line [] [] false false).map QVariant.str

/-- The state of a `CsvDataSource`.  `fileData` is the byte content of the
mapped file (ASCII; offsets are list indices), `rowCount = -1` means the row
count has not been computed yet. -/
structure CsvState where
  hasHeader : Bool
  delimiter : Char
  rowCount : Int
  columnCount : Int
  headers : List String
  isValid : Bool
  fileOpen : Bool
  fileSize : Nat
  fileData : List Char
  rowOffsets : List Nat
  maxCacheSize : Int
  rowCache : List (Int × Row)
  cacheOrder : List Int
deriving DecidableEq, Repr

/-- The `while (pos < windowEnd && data[pos] != newline) pos++` scan shared by
the mapped-window loops.  Fuelled structural recursion; `fuel ≥ windowEnd`
makes it exact. -/
def scanFrom (file : List Char) (windowEnd : Nat) : Nat → Nat → Nat
  | 0, pos => pos
  | fuel + 1, pos =>
    if pos < windowEnd ∧ file.getD pos ' ' ≠ '\n' then scanFrom file windowEnd fuel (pos + 1)
    else pos

/-- The end position of the line starting at `offset`: the mapped-window scan
of `getLineFromMappedData` / `ensureRowOffsetCalculated` / `calculateRowCount`
(1 MiB window containing the offset, clipped to the file size). -/
def scanLineEnd (file : List Char) (fileSize offset : Nat) : Nat :=
  let blockStart := offset - offset % 1048576
  let windowEnd := min (blockStart + 1048576) fileSize
  scanFrom file windowEnd windowEnd offset

/-- The offset-growing loop of `CsvDataSource::ensureRowOffsetCalculated`
(lines 455-489): scan forward recording the start offset of every non-empty
line until the index covers `rowIdx` or end of file.  Each iteration advances
`cur` by at least one byte, so `fuel = fileSize + 1` is sufficient. -/
def ensureOffsetsLoop (file : List Char) (fileSize rowIdx : Nat) :
    Nat → Nat → List Nat → List Nat
  | 0, _, offsets => offsets
  | fuel + 1, cur, offsets =>
    if cur < fileSize ∧ offsets.length ≤ rowIdx then
      let lineEnd := scanLineEnd file fileSize cur
      let offsets1 := if lineEnd > cur then offsets ++ [cur] else offsets
      ensureOffsetsLoop file fileSize rowIdx fuel (lineEnd + 1) offsets1
    else offsets

/-- `CsvDataSource::ensureRowOffsetCalculated` (lines 436-492). -/
def ensureRowOffsetCalculated (rowIndex : Int) (st : CsvState) : Bool × CsvState :=
  if rowIndex < 0 then (false, st)
  else if rowIndex.toNat < st.rowOffsets.length then (true, st)
  else
    let cur := if st.rowOffsets.isEmpty then 0 else st.rowOffsets.getLastD 0
    let offsets0 := if st.rowOffsets.isEmpty then [0] else st.rowOffsets
    let offsets :=
      ensureOffsetsLoop st.fileData st.fileSize rowIndex.toNat (st.fileSize + 1) cur offsets0
    (rowIndex.toNat < offsets.length, { st with rowOffsets := offsets })

/-- `CsvDataSource::ensureRowOffsetsCalculated` (lines 494-503). -/
def ensureRowOffsetsCalculated (startRow endRow : Int) (st : CsvState) : CsvState :=
  let actualStartRow := if st.hasHeader then startRow + 1 else startRow
  let actualEndRow := if st.hasHeader then endRow + 1 else endRow
  (intRange actualStartRow actualEndRow).foldl
    (fun acc i => (ensureRowOffsetCalculated i acc).2) st

/-- The counting loop of `CsvDataSource::calculateRowCount` (lines 522-557). -/
def countRowsLoop (file : List Char) (fileSize : Nat) : Nat → Nat → Nat → Nat
  | 0, _, count => count
  | fuel + 1, cur, count =>
    if cur < fileSize then
      let lineEnd := scanLineEnd file fileSize cur
      let count1 := if lineEnd > cur then count + 1 else count
      countRowsLoop file fileSize fuel (lineEnd + 1) count1
    else count

/-- `CsvDataSource::calculateRowCount` (lines 505-566): count the non-empty
lines from the first data offset to end of file. -/
def calculateRowCount (st : CsvState) : CsvState :=
  if st.rowCount ≠ -1 ∨ ¬ st.fileOpen then st
  else
    let cur := if st.rowOffsets.length > 1 then st.rowOffsets.getD 1 0 else 0
    if cur ≥ st.fileSize then { st with rowCount := 0 }
    else
      { st with rowCount := (countRowsLoop st.fileData st.fileSize (st.fileSize + 1) cur 0 : Int) }

/-- `CsvDataSource::getLineFromMappedData` (lines 324-379): the characters of
the requested logical row's line, or `none` for the failure branches that
return a null `QString`. -/
def getLineFromMappedData (rowIndex : Int) (st : CsvState) : Option (List Char) × CsvState :=
  if rowIndex < 0 ∨ ¬ st.fileOpen then (none, st)
  else
    let actualRowIndex := if st.hasHeader then rowIndex + 1 else rowIndex
    let r := ensureRowOffsetCalculated actualRowIndex st
    if ¬ r.1 then (none, r.2)
    else if actualRowIndex.toNat ≥ r.2.rowOffsets.length then (none, r.2)
    else
      let startOffset := r.2.rowOffsets.getD actualRowIndex.toNat 0
      if startOffset ≥ st.fileSize then (none, r.2)
      else
        let endOffset := scanLineEnd st.fileData st.fileSize startOffset
        (some ((st.fileData.drop startOffset).take (endOffset - startOffset)), r.2)

/-- `CsvDataSource::cleanupCache` (lines 425-434): evict the least recently
used cached row. -/
def cleanupCache (st : CsvState) : CsvState :=
  match st.cacheOrder with
  | [] => st
  | oldestRow :: rest =>
      { st with cacheOrder := rest, rowCache := hashRemove oldestRow st.rowCache }

/-- `CsvDataSource::cacheRow` (lines 381-407).  Note the source overwrites
`m_maxCacheSize` with the hard-coded constant 50000 on every call before the
capacity check. -/
def cacheRow (rowIndex : Int) (data : Row) (st : CsvState) : CsvState :=
  let st1 := { st with maxCacheSize := 50000 }
  let st2 := if (st1.rowCache.length : Int) ≥ st1.maxCacheSize then cleanupCache st1 else st1
  { st2 with
    rowCache := hashInsert rowIndex data st2.rowCache
    cacheOrder := (st2.cacheOrder.filter (fun r => r ≠ rowIndex)) ++ [rowIndex] }

/-- `CsvDataSource::getFromCache` (lines 409-423): look a row up in the cache,
moving it to most recently used on a hit. -/
def getFromCache (rowIndex : Int) (st : CsvState) : Option Row × CsvState :=
  match findEntry rowIndex st.rowCache with
  | some d =>
      (some d,
       { st with cacheOrder := (st.cacheOrder.filter (fun r => r ≠ rowIndex)) ++ [rowIndex] })
  | none => (none, st)

/-- Pad or truncate a parsed row to exactly `columnCount` fields
(CsvDataSource.cpp lines 127-136). -/
def normalizeRow (columnCount : Nat) (rowData : Row) : Row :=
  if rowData.length < columnCount then rowData ++ List.replicate (columnCount - rowData.length) .null
  else if rowData.length > columnCount then rowData.take columnCount
  else rowData

/-- The per-row loop of `CsvDataSource::loadData` (lines 108-143), including
the `break` on a null line read. -/
def loadDataLoop (st : CsvState) (acc : List Row) : List Int → List Row × CsvState
  | [] => (acc, st)
  | i :: rest =>
    match getFromCache i st with
    | (some rowData, st1) => loadDataLoop st1 (acc ++ [rowData]) rest
    | (none, st1) =>
      match getLineFromMappedData i st1 with
      | (none, st2) => (acc, st2)
      | (some line, st2) =>
        let rowData := normalizeRow st2.columnCount.toNat (parseLine st2.delimiter line)
        let st3 := cacheRow i rowData st2
        loadDataLoop st3 (acc ++ [rowData]) rest

/-- `CsvDataSource::loadData` (lines 63-146). -/
def loadData (startRow count : Int) (st : CsvState) : List Row × CsvState :=
  if ¬ st.isValid ∨ startRow < 0 then ([], st)
  else
    let st1 := if st.rowCount = -1 then calculateRowCount st else st
    if st1.rowCount = -1 then ([], { st1 with rowCount := 0 })
    else if startRow ≥ st1.rowCount then ([], st1)
    else
      let endRow := min (startRow + count) st1.rowCount
      if endRow - startRow ≤ 0 then ([], st1)
      else
        let st2 := ensureRowOffsetsCalculated startRow endRow st1
        loadDataLoop st2 [] (intRange startRow (endRow - 1))

/-- `CsvDataSource::rowCount` (lines 30-56): computes the row count lazily on
first demand. -/
def csvRowCount (st : CsvState) : Int × CsvState :=
  if st.rowCount = -1 then
    let st1 := calculateRowCount st
    if st1.rowCount = -1 then (0, st1) else (st1.rowCount, st1)
  else (st.rowCount, st)

/-- `CsvDataSource::headerData` (lines 148-151). -/
def headerData (st : CsvState) : List String :=
  st.headers

/-- The constructor `CsvDataSource::CsvDataSource` together with
`CsvDataSource::initialize` (lines 8-20 and 168-234), applied to a file whose
open succeeds and whose content is `file`.  The default arguments of the
constructor are `hasHeader = true`, `delimiter = comma`,
`maxCacheSize = 10000` (CsvDataSource.h line 31). -/
def csvNew (file : List Char) (hasHeader : Bool) (delim : Char) (maxCacheSize : Int) : CsvState :=
  let base : CsvState :=
    { hasHeader := hasHeader, delimiter := delim, rowCount := -1, columnCount := 0
      headers := [], isValid := false, fileOpen := true
      fileSize := file.length, fileData := file, rowOffsets := []
      maxCacheSize := maxCacheSize, rowCache := [], cacheOrder := [] }
  if file.length = 0 then { base with fileOpen := false }
  else
    let headerMapSize := min file.length 1048576
    let headerEnd := scanFrom file headerMapSize headerMapSize 0
    if headerEnd ≥ headerMapSize then { base with fileOpen := false }
    else
      let headerLine := file.take headerEnd
      let headers := (parseLine delim headerLine).map
        (fun v => match v with | .null => "" | .str s => s)
      let rowOffsets := if hasHeader then [0, headerEnd + 1] else [0]
      { base with
        headers := headers, columnCount := (headers.length : Int)
        rowOffsets := rowOffsets, isValid := headers.length > 0 }

/-! ### Spec-side definitions

These definitions follow the wording of the specification (spec.md) rather
than the source; the theorems compare them with the source-derived
definitions above. -/

/-- Spec §4.1: the `(blocksAhead, blocksBehind)` pair per preload policy —
"(1,0), (2,1), (5,2) respectively". -/
def specPreloadCounts : PreloadPolicy → Int × Int
  | .Conservative => (1, 0)
  | .Balanced => (2, 1)
  | .Aggressive => (5, 2)

/-- Spec §4.1: "totalBlocks = ceil(totalRows / blockSize)", with mathematical
(exact) division. -/
def specTotalBlocks (totalRows blockSize : Int) : Int :=
  ⌈(totalRows : ℚ) / (blockSize : ℚ)⌉

/-- Spec §4.1: the prefetch range
"[max(0, center - blocksBehind), min(totalBlocks-1, center + blocksAhead)]". -/
def specPrefetchRange (center totalRows blockSize blocksAhead blocksBehind : Int) : Int × Int :=
  (max 0 (center - blocksBehind), min (specTotalBlocks totalRows blockSize - 1) (center + blocksAhead))

/-- Membership of a block index in the cleanup prefetch window. -/
def inWindow (st : ModelState) (b : Int) : Prop :=
  (cleanupWindow st).1 ≤ b ∧ b ≤ (cleanupWindow st).2

instance (st : ModelState) (b : Int) : Decidable (inWindow st b) :=
  inferInstanceAs (Decidable (_ ∧ _))

/-- The number of blocks outside the cleanup window whose access time is
strictly later than `t`. -/
def countLaterOutside (st : ModelState) (t : Nat) : Nat :=
  ((blockAccessTimes st).filter (fun y => t < y.1)).length

/-! ### Concrete fixtures used by counterexamples and witnesses -/

/-- A data source with 10000 rows and 3 columns. -/
def source10000 : Source :=
  { rowCount := 10000, columnCount := 3 }

/-- A freshly constructed model with `source10000` set and Aggressive policy. -/
def aggressiveModel1000 : ModelState :=
  { setDataSource (some source10000) initialModel with preloadPolicy := .Aggressive }

/-- A model with Aggressive policy and its policy-derived counts `(5,2)`. -/
def speedTestState : ModelState :=
  updatePreloadBlockCounts { initialModel with preloadPolicy := .Aggressive }

/-- A data source with 10 rows and 2 columns. -/
def sourceSmall : Source :=
  { rowCount := 10, columnCount := 2 }

/-- A fresh model with `sourceSmall` set and no block loaded yet. -/
def dataReadTestState : ModelState :=
  setDataSource (some sourceSmall) initialModel

/-- A data source with 31 rows and 1 column. -/
def sourceC9 : Source :=
  { rowCount := 31, columnCount := 1 }

/-- A one-row-per-block model whose block 0 was merged with an EMPTY row list:
the block is valid but stores no row, so every read of row 0 falls into the
short-data path. -/
def shortBlockState : ModelState :=
  onBlockLoaded 0 [] (setBlockSize 1 (setDataSource (some sourceC9) initialModel))

/-- The valid-but-empty block 0 of `shortBlockState`. -/
def shortBlk : DataBlock :=
  { startRow := 0, count := 1, data := [], isValid := true, lastAccessTime := 0 }

/-- `shortBlockState` with blocks 1..30 also resident. -/
def c9base : ModelState :=
  (List.range 30).foldl (fun st i => onBlockLoaded ((i : Int) + 1) [[QVariant.str "x"]] st)
    shortBlockState

/-- `c9base` after a scroll to rows 20..30: the cleanup pass evicts the
valid-but-empty block 0 (it is outside the prefetch window and not among the
ten most recently accessed blocks). -/
def c9afterScroll : ModelState :=
  setVisibleRange 20 30 c9base

/-- `c9afterScroll` after one read of cell (0,0) — which schedules a fresh
load of the now-nonresident block 0 — and the merge of that load with a full
row.  No `setDataSource` or `setBlockSize` occurs anywhere after the
short block came into existence. -/
def c9afterReload : ModelState :=
  onBlockLoaded 0 [[QVariant.str "v"]] (dataRead 0 0 .display c9afterScroll).2

/-- The de-duplication invariant: the pending-load table and the block store
have at most one entry per block index. -/
def ModelInv (st : ModelState) : Prop :=
  (st.loadTasks.map Prod.fst).Nodup ∧ (st.dataBlocks.map Prod.fst).Nodup

/-- One transition of the block cache: a public entry point invoked by the
host, or the completion slot of an asynchronous load invoked by the
environment with arbitrary loaded rows. -/
inductive ModelStep : ModelState → ModelState → Prop where
  | sourceStep (st : ModelState) (src : Option Source) : ModelStep st (setDataSource src st)
  | sizeStep (st : ModelState) (n : Int) : ModelStep st (setBlockSize n st)
  | policyStep (st : ModelState) (p : PreloadPolicy) : ModelStep st (setPreloadPolicy p st)
  | rangeStep (st : ModelState) (s e : Int) : ModelStep st (setVisibleRange s e st)
  | speedStep (st : ModelState) (v : ℚ) : ModelStep st (setScrollSpeed v st)
  | jumpStep (st : ModelState) (r : Int) : ModelStep st (jumpToRow r st)
  | readStep (st : ModelState) (row col : Int) (role : ItemRole) :
      ModelStep st (dataRead row col role st).2
  | mergeStep (st : ModelState) (b : Int) (data : List Row) :
      ModelStep st (onBlockLoaded b data st)

/-- The states reachable from a freshly constructed model. -/
inductive ModelReachable : ModelState → Prop where
  | init : ModelReachable initialModel
  | step {st st' : ModelState} :
      ModelReachable st → ModelStep st st' → ModelReachable st'

/-- The configuration fields of the model state that the cleanup window
depends on. -/
def cfg (s : ModelState) : Option Source × Int × Int × Int × Int × Int :=
  (s.dataSource, s.blockSize, s.preloadBlocksAhead, s.preloadBlocksBehind,
    s.visibleStartRow, s.visibleEndRow)

def sourceC4 : Source := { rowCount := 20, columnCount := 1 }

def c4Blk (i : Nat) : DataBlock :=
  { startRow := (i : Int), count := 1, data := [[QVariant.str "x"]],
    isValid := true, lastAccessTime := i }

def c4State : ModelState :=
  { dataSource := some sourceC4, blockSize := 1, preloadPolicy := .Balanced
    dataBlocks := (List.range 11).map (fun (i : Nat) => ((i : Int), c4Blk i))
    loadingStatus := .Idle, visibleStartRow := 4, visibleEndRow := 6, scrollSpeed := 0
    preloadBlocksAhead := 2, preloadBlocksBehind := 1, loadTasks := [], now := 100 }

def c1pre : ModelState :=
  (List.range 31).foldl (fun st i => onBlockLoaded (i : Int) [[QVariant.str "x"]] st)
    (setVisibleRange 0 30 (setBlockSize 1 (setDataSource (some sourceC9) initialModel)))

/-- The cache well-formedness invariant of the CSV reader: the access-order
list is duplicate-free, the cache keys are duplicate-free, the two carry
exactly the same row indices, and the cache never exceeds the effective
capacity of 50000 rows. -/
def CacheInv (st : CsvState) : Prop :=
  st.cacheOrder.Nodup
  ∧ (st.rowCache.map Prod.fst).Nodup
  ∧ (∀ k, k ∈ st.cacheOrder ↔ k ∈ st.rowCache.map Prod.fst)
  ∧ st.rowCache.length ≤ 50000

/-- One public-interface transition of the CSV data source. -/
inductive CsvStep : CsvState → CsvState → Prop where
  | loadStep (st : CsvState) (startRow count : Int) : CsvStep st (loadData startRow count st).2
  | rowCountStep (st : CsvState) : CsvStep st (csvRowCount st).2

/-- The states a `CsvDataSource` can reach: a constructed reader followed by
any sequence of `loadData` / `rowCount` calls. -/
inductive CsvReachable : CsvState → Prop where
  | new (file : List Char) (hh : Bool) (d : Char) (m : Int) : CsvReachable (csvNew file hh d m)
  | step {st st' : CsvState} : CsvReachable st → CsvStep st st' → CsvReachable st'

/-! ### C6 / C8 / C10 scenario fixtures and LRU lemmas -/

def file8 : List Char := "id,name,score\n1,Alice,9.5\n2,Bob,7.25\n".toList

def csv8 : CsvState := csvNew file8 true ',' 10000

def cacheRowAll (v : Row) (ks : List Int) (st : CsvState) : CsvState :=
  ks.foldl (fun s k => cacheRow k v s) st

def lruKeys : List Int := (List.range 50000).map (fun (n : Nat) => (n : Int))

def emptyCsv : CsvState := csvNew [] true ',' 10000

/-! ### Association-list and range lemmas -/


theorem findEntry_cons (k : Int) (p : Int × β) (m : List (Int × β)) :
    findEntry k (p :: m) = if p.1 = k then some p.2 else findEntry k m := rfl

theorem findEntry_eq_none_iff (k : Int) (m : List (Int × β)) :
    findEntry k m = none ↔ k ∉ m.map Prod.fst := by
  induction m with
  | nil => simp [findEntry]
  | cons p rest ih =>
    rw [findEntry_cons]
    by_cases h : p.1 = k
    · simp [h]
    · rw [if_neg h, ih]
      simp only [List.map_cons, List.mem_cons, not_or]
      exact ⟨fun hk => ⟨fun he => h he.symm, hk⟩, fun hp => hp.2⟩

theorem hasKey_iff (k : Int) (m : List (Int × β)) :
    hasKey k m = true ↔ k ∈ m.map Prod.fst := by
  unfold hasKey
  rw [Option.isSome_iff_ne_none, Ne, findEntry_eq_none_iff, not_not]

theorem keys_hashInsert (k : Int) (v : β) (m : List (Int × β)) :
    (hashInsert k v m).map Prod.fst =
      if hasKey k m then m.map Prod.fst else m.map Prod.fst ++ [k] := by
  unfold hashInsert
  by_cases h : hasKey k m
  · rw [if_pos h, if_pos h, List.map_map]
    refine List.map_congr_left ?_
    intro p _
    by_cases hp : p.1 = k <;> simp [hp]
  · rw [if_neg h, if_neg h, List.map_append]
    rfl

theorem nodup_keys_hashInsert (k : Int) (v : β) (m : List (Int × β))
    (h : (m.map Prod.fst).Nodup) : ((hashInsert k v m).map Prod.fst).Nodup := by
  rw [keys_hashInsert]
  by_cases hc : hasKey k m
  · rwa [if_pos hc]
  · rw [if_neg hc]
    have hk : k ∉ m.map Prod.fst := fun hm => hc ((hasKey_iff k m).mpr hm)
    simp [List.nodup_append, h, hk]

theorem nodup_keys_filter (f : Int × β → Bool) (m : List (Int × β))
    (h : (m.map Prod.fst).Nodup) : ((m.filter f).map Prod.fst).Nodup := by
  induction m with
  | nil => simp
  | cons p rest ih =>
    simp only [List.map_cons, List.nodup_cons] at h
    rw [List.filter_cons]
    by_cases hf : f p = true
    · rw [if_pos hf]
      simp only [List.map_cons, List.nodup_cons]
      refine ⟨fun hm => ?_, ih h.2⟩
      rw [List.mem_map] at hm
      obtain ⟨q, hq, hfst⟩ := hm
      exact h.1 (by rw [List.mem_map]; exact ⟨q, (List.mem_filter.mp hq).1, hfst⟩)
    · rw [if_neg hf]
      exact ih h.2

theorem findEntry_filter_key (f : Int → Bool) (k : Int) (m : List (Int × β)) :
    findEntry k (m.filter (fun p => f p.1)) = if f k = true then findEntry k m else none := by
  induction m with
  | nil => cases hf : f k <;> simp [findEntry, hf]
  | cons p rest ih =>
    rw [List.filter_cons]
    cases hf : f p.1 with
    | false =>
      rw [if_neg (by simp)]
      rw [ih]
      by_cases hp : p.1 = k
      · subst hp
        rw [hf]
        simp
      · rw [findEntry_cons, if_neg hp]
    | true =>
      rw [if_pos (by simp)]
      rw [findEntry_cons]
      by_cases hp : p.1 = k
      · subst hp
        rw [if_pos rfl, hf, if_pos rfl, findEntry_cons, if_pos rfl]
      · rw [if_neg hp, ih, findEntry_cons, if_neg hp]

theorem mem_intRange (b lo hi : Int) : b ∈ intRange lo hi ↔ lo ≤ b ∧ b ≤ hi := by
  unfold intRange
  simp only [List.mem_map, List.mem_range]
  constructor
  · rintro ⟨i, hi2, rfl⟩
    omega
  · intro hb
    exact ⟨(b - lo).toNat, by omega, by omega⟩

theorem contains_intRange (b lo hi : Int) :
    (intRange lo hi).contains b = true ↔ lo ≤ b ∧ b ≤ hi := by
  rw [← mem_intRange b lo hi]
  exact List.elem_iff

theorem findEntry_of_mem_nodup (m : List (Int × β)) (p : Int × β)
    (hmem : p ∈ m) (hnd : (m.map Prod.fst).Nodup) : findEntry p.1 m = some p.2 := by
  induction m with
  | nil => simp at hmem
  | cons q rest ih =>
    simp only [List.map_cons, List.nodup_cons] at hnd
    rcases List.mem_cons.mp hmem with h | h
    · subst h
      rw [findEntry_cons, if_pos rfl]
    · rw [findEntry_cons]
      have hq : q.1 ≠ p.1 := by
        intro he
        exact hnd.1 (he ▸ (List.mem_map.mpr ⟨p, h, rfl⟩))
      rw [if_neg hq]
      exact ih h hnd.2

theorem mem_of_findEntry (m : List (Int × β)) (k : Int) (v : β)
    (h : findEntry k m = some v) : (k, v) ∈ m := by
  induction m with
  | nil => simp [findEntry] at h
  | cons q rest ih =>
    rw [findEntry_cons] at h
    by_cases hq : q.1 = k
    · rw [if_pos hq] at h
      obtain ⟨q1, q2⟩ := q
      simp only [Option.some.injEq] at h
      simp only at hq
      subst hq
      subst h
      exact List.mem_cons_self _ _
    · rw [if_neg hq] at h
      exact List.mem_cons_of_mem q (ih h)

/-! ### Arithmetic lemmas -/

theorem tdiv_add_sub_one_eq_ceil (r b : Int) (hr : 0 ≤ r) (hb : 0 < b) :
    (r + b - 1).tdiv b = ⌈(r : ℚ) / (b : ℚ)⌉ := by
  rw [Int.tdiv_eq_ediv (by omega) (by omega)]
  symm
  rw [Int.ceil_eq_iff]
  have key := Int.ediv_add_emod (r + b - 1) b
  have hmn := Int.emod_nonneg (r + b - 1) (by omega : b ≠ 0)
  have hml := Int.emod_lt_of_pos (r + b - 1) hb
  have hbq : (0 : ℚ) < (b : ℚ) := by exact_mod_cast hb
  constructor
  · have hexp : ((r + b - 1) / b - 1) * b = b * ((r + b - 1) / b) - b := by ring
    have hi : ((r + b - 1) / b - 1) * b < r := by linarith [key, hmn, hml, hexp]
    have hq2 : ((((r + b - 1) / b : Int) : ℚ) - 1) * (b : ℚ) < (r : ℚ) := by
      exact_mod_cast hi
    exact (lt_div_iff₀ hbq).mpr hq2
  · have hexp : ((r + b - 1) / b) * b = b * ((r + b - 1) / b) := mul_comm _ _
    have hi : r ≤ ((r + b - 1) / b) * b := by linarith [key, hmn, hml, hexp]
    have hq2 : (r : ℚ) ≤ (((r + b - 1) / b : Int) : ℚ) * (b : ℚ) := by exact_mod_cast hi
    exact (div_le_iff₀ hbq).mpr hq2

/-! ### Claim C2: the prefetch range formula -/

/-- Claim C2: with a data source set and the policy-derived
`(blocksAhead, blocksBehind)` counts — `(1,0)` for Conservative, `(2,1)` for
Balanced, `(5,2)` for Aggressive — the computed prefetch range around any
center block `c` equals
`[max(0, c - blocksBehind), min(totalBlocks - 1, c + blocksAhead)]` with
`totalBlocks = ceil(totalRows / blockSize)` (exact division); in particular
under Aggressive policy it is `[c - 2, c + 5]` clamped to
`[0, totalBlocks - 1]`. -/
theorem preloadRange_matches_spec (st : ModelState) (ds : Source) (c : Int)
    (hds : st.dataSource = some ds) (hrc : 0 ≤ ds.rowCount) (hbs : 0 < st.blockSize) :
    ((updatePreloadBlockCounts st).preloadBlocksAhead,
      (updatePreloadBlockCounts st).preloadBlocksBehind) = specPreloadCounts st.preloadPolicy
    ∧ calculatePreloadRange c (updatePreloadBlockCounts st) =
        specPrefetchRange c ds.rowCount st.blockSize
          (specPreloadCounts st.preloadPolicy).1 (specPreloadCounts st.preloadPolicy).2 := by
  have hceil := tdiv_add_sub_one_eq_ceil ds.rowCount st.blockSize hrc hbs
  cases hp : st.preloadPolicy <;>
    simp [updatePreloadBlockCounts, calculatePreloadRange, specPrefetchRange,
      specPreloadCounts, specTotalBlocks, hds, hp, hceil]

theorem preloadRange_matches_spec_witness :
    (aggressiveModel1000.dataSource = some source10000
      ∧ 0 ≤ source10000.rowCount ∧ 0 < aggressiveModel1000.blockSize)
    ∧ calculatePreloadRange 5 (updatePreloadBlockCounts aggressiveModel1000) =
        specPrefetchRange 5 source10000.rowCount aggressiveModel1000.blockSize 5 2 := by
  refine ⟨⟨rfl, by decide, by decide⟩, ?_⟩
  exact (preloadRange_matches_spec aggressiveModel1000 source10000 5 rfl
    (by decide) (by decide)).2

/-! ### Claim C7: scroll-velocity adaptation -/

/-- Claim C7 counterexample: the claim as stated fails on the code.  With the
Aggressive policy counts `(5,2)` halved once to `(2,1)` by a fast scroll,
`setScrollSpeed 0` does not restore the policy-derived counts (the low-speed
branch requires `speed > 0`), and a negative velocity of large magnitude does
not halve the counts (the threshold compares signed speed, not `abs speed`). -/
theorem setScrollSpeed_claim_counterexample :
    (speedTestState.preloadBlocksAhead, speedTestState.preloadBlocksBehind) = (5, 2)
    ∧ ((setScrollSpeed 6000 speedTestState).preloadBlocksAhead,
        (setScrollSpeed 6000 speedTestState).preloadBlocksBehind) = (2, 1)
    ∧ ((setScrollSpeed 0 (setScrollSpeed 6000 speedTestState)).preloadBlocksAhead,
        (setScrollSpeed 0 (setScrollSpeed 6000 speedTestState)).preloadBlocksBehind) ≠ (5, 2)
    ∧ ((setScrollSpeed (-6000) speedTestState).preloadBlocksAhead,
        (setScrollSpeed (-6000) speedTestState).preloadBlocksBehind) ≠ (2, 1) := by
  decide

/-- Claim C7 (amended): `setScrollVelocity v` halves the current prefetch
counts (floor 1 ahead / 0 behind) when `v > 5000`; restores the
policy-derived counts when `0 < v < 500`; and leaves the counts unchanged
otherwise (in particular for `v = 0` and for all negative velocities).  The
thresholds compare the signed velocity, and the halving branch acts on the
current counts, so the result is not a pure function of velocity and policy
alone. -/
theorem setScrollSpeed_cases (st : ModelState) (v : ℚ) :
    (v > 5000 →
      (setScrollSpeed v st).preloadBlocksAhead = max 1 (st.preloadBlocksAhead.tdiv 2)
      ∧ (setScrollSpeed v st).preloadBlocksBehind = max 0 (st.preloadBlocksBehind.tdiv 2))
    ∧ (0 < v ∧ v < 500 →
      ((setScrollSpeed v st).preloadBlocksAhead, (setScrollSpeed v st).preloadBlocksBehind)
        = specPreloadCounts st.preloadPolicy)
    ∧ ((v ≤ 0 ∨ (500 ≤ v ∧ v ≤ 5000)) →
      (setScrollSpeed v st).preloadBlocksAhead = st.preloadBlocksAhead
      ∧ (setScrollSpeed v st).preloadBlocksBehind = st.preloadBlocksBehind)
    ∧ (setScrollSpeed v st).scrollSpeed = v := by
  unfold setScrollSpeed
  by_cases h1 : v > 5000
  · rw [if_pos h1]
    refine ⟨fun _ => ⟨rfl, rfl⟩, fun h2 => absurd h1 (by linarith [h2.2]), fun h3 => ?_, rfl⟩
    rcases h3 with h3 | h3
    · exact absurd h1 (by linarith)
    · exact absurd h1 (by linarith [h3.2])
  · rw [if_neg h1]
    by_cases h2 : v < 500 ∧ v > 0
    · rw [if_pos h2]
      refine ⟨fun hv => absurd hv h1, fun _ => ?_, fun h3 => ?_, ?_⟩
      · cases hp : st.preloadPolicy <;> simp [updatePreloadBlockCounts, specPreloadCounts, hp]
      · rcases h3 with h3 | h3
        · exact absurd h3 (by linarith [h2.2])
        · exact absurd h3.1 (by linarith [h2.1])
      · cases hp : st.preloadPolicy <;> simp [updatePreloadBlockCounts, hp]
    · rw [if_neg h2]
      exact ⟨fun hv => absurd hv h1, fun hv => absurd ⟨hv.2, hv.1⟩ h2, fun _ => ⟨rfl, rfl⟩, rfl⟩

theorem setScrollSpeed_cases_witness :
    ((setScrollSpeed 6000 speedTestState).preloadBlocksAhead = max 1 ((5 : Int).tdiv 2))
    ∧ ((setScrollSpeed 300 speedTestState).preloadBlocksAhead,
        (setScrollSpeed 300 speedTestState).preloadBlocksBehind) = specPreloadCounts .Aggressive := by
  constructor
  · exact ((setScrollSpeed_cases speedTestState 6000).1 (by norm_num)).1
  · exact (setScrollSpeed_cases speedTestState 300).2.1 (by norm_num)

/-! ### Claim C5: the cell read -/


theorem hasKey_hashInsert_self (k : Int) (v : β) (m : List (Int × β)) :
    hasKey k (hashInsert k v m) = true := by
  rw [hasKey_iff, keys_hashInsert]
  by_cases h : hasKey k m
  · rw [if_pos h]
    exact (hasKey_iff k m).mp h
  · rw [if_neg h]
    simp

theorem tdiv_mul_le_self (a b : Int) (ha : 0 ≤ a) (hb : 0 < b) : a.tdiv b * b ≤ a := by
  rw [Int.tdiv_eq_ediv ha (le_of_lt hb)]
  exact Int.ediv_mul_le a (by omega)

theorem loadBlock_pending_of_invalid (st : ModelState) (ds : Source) (b : Int) (p : Bool)
    (hds : st.dataSource = some ds)
    (hinv : blockValidAt st b = false)
    (hstart : b * st.blockSize < ds.rowCount) (hbs : 0 < st.blockSize) :
    hasKey b (loadBlock b p st).loadTasks = true := by
  unfold loadBlock
  rw [hds]
  simp only [hinv, Bool.false_eq_true, if_false]
  by_cases hrun : taskRunningAt st b = true
  · rw [if_pos hrun]
    unfold taskRunningAt at hrun
    unfold hasKey
    rcases hfe : findEntry b st.loadTasks with _ | r
    · rw [hfe] at hrun
      simp at hrun
    · simp [hfe]
  · rw [if_neg hrun, if_neg (by omega : ¬ b * st.blockSize ≥ ds.rowCount)]
    by_cases hcnt : b * st.blockSize + st.blockSize > ds.rowCount
    · rw [if_pos hcnt, if_neg (by omega : ¬ ds.rowCount - b * st.blockSize ≤ 0)]
      exact hasKey_hashInsert_self b true st.loadTasks
    · rw [if_neg hcnt, if_neg (by omega : ¬ st.blockSize ≤ 0)]
      exact hasKey_hashInsert_self b true st.loadTasks

/-- Claim C5: the cell read `data` returns the stored value when the owning
block is valid and actually stores the requested row and column; otherwise
(block absent or invalid) it triggers a fire-and-forget load of that block —
afterwards the block has a pending load entry — and returns the pending
placeholder `"......"`; and for any out-of-range row or column it returns the
empty `QVariant` with the state unchanged.  `dataRead` is a total function,
so no case raises. -/
theorem dataRead_spec (st : ModelState) (ds : Source) (row col : Int) (role : ItemRole)
    (hds : st.dataSource = some ds) (hbs : 0 < st.blockSize) (hrole : role ≠ ItemRole.other) :
    ((row < 0 ∨ row ≥ ds.rowCount ∨ col < 0 ∨ col ≥ ds.columnCount) →
      dataRead row col role st = (.null, st))
    ∧ (∀ blk, 0 ≤ row → row < ds.rowCount → 0 ≤ col → col < ds.columnCount →
        findEntry (getBlockIndex row st) st.dataBlocks = some blk → blk.isValid = true →
        ∀ h1 : (row.tmod st.blockSize).toNat < blk.data.length,
        ∀ h2 : col.toNat < (blk.data.get ⟨(row.tmod st.blockSize).toNat, h1⟩).length,
        (dataRead row col role st).1 =
          (blk.data.get ⟨(row.tmod st.blockSize).toNat, h1⟩).get ⟨col.toNat, h2⟩)
    ∧ (0 ≤ row → row < ds.rowCount → 0 ≤ col → col < ds.columnCount →
        blockValidAt st (getBlockIndex row st) = false →
        (dataRead row col role st).1 = QVariant.str "......"
        ∧ hasKey (getBlockIndex row st) (dataRead row col role st).2.loadTasks = true) := by
  refine ⟨?_, ?_, ?_⟩
  · intro hout
    simp only [dataRead, hds]
    rw [if_pos hout]
  · intro blk hr0 hr1 hc0 hc1 hfe hvalid h1 h2
    cases role with
    | other => exact absurd rfl hrole
    | display =>
      simp only [dataRead, hds, hfe]
      rw [if_neg (by omega)]
      simp only [hvalid, if_true, dif_pos h1, dif_pos h2]
    | edit =>
      simp only [dataRead, hds, hfe]
      rw [if_neg (by omega)]
      simp only [hvalid, if_true, dif_pos h1, dif_pos h2]
  · intro hr0 hr1 hc0 hc1 hinv
    have hstart : getBlockIndex row st * st.blockSize < ds.rowCount := by
      have := tdiv_mul_le_self row st.blockSize hr0 hbs
      unfold getBlockIndex
      omega
    have hload := loadBlock_pending_of_invalid st ds (getBlockIndex row st) true hds hinv hstart hbs
    cases role with
    | other => exact absurd rfl hrole
    | display =>
      unfold blockValidAt at hinv
      rcases hfe : findEntry (getBlockIndex row st) st.dataBlocks with _ | blk
      · simp only [dataRead, hds, hfe]
        rw [if_neg (by omega)]
        exact ⟨by simp, hload⟩
      · simp only [hfe] at hinv
        simp only [dataRead, hds, hfe]
        rw [if_neg (by omega)]
        simp only [hinv, Bool.false_eq_true, if_false]
        exact ⟨by simp, hload⟩
    | edit =>
      unfold blockValidAt at hinv
      rcases hfe : findEntry (getBlockIndex row st) st.dataBlocks with _ | blk
      · simp only [dataRead, hds, hfe]
        rw [if_neg (by omega)]
        exact ⟨by simp, hload⟩
      · simp only [hfe] at hinv
        simp only [dataRead, hds, hfe]
        rw [if_neg (by omega)]
        simp only [hinv, Bool.false_eq_true, if_false]
        exact ⟨by simp, hload⟩

theorem dataRead_spec_witness :
    (dataRead 5 0 .display dataReadTestState).1 = QVariant.str "......"
    ∧ hasKey 0 (dataRead 5 0 .display dataReadTestState).2.loadTasks = true := by
  have h := (dataRead_spec dataReadTestState sourceSmall 5 0 .display rfl (by decide)
    (by decide)).2.2 (by decide) (by decide) (by decide) (by decide) (by decide)
  exact h

/-! ### Claim C9: reads of a valid block with short data -/


theorem findEntry_touchMap (t : Nat) (b k : Int) (m : List (Int × DataBlock)) :
    findEntry k (m.map (fun p => if p.1 = b then (p.1, { p.2 with lastAccessTime := t }) else p)) =
      (findEntry k m).map (fun blk => if k = b then { blk with lastAccessTime := t } else blk) := by
  induction m with
  | nil => simp [findEntry]
  | cons p rest ih =>
    simp only [List.map_cons]
    by_cases hp : p.1 = b <;> by_cases hk : p.1 = k
    · have hkb : k = b := by rw [← hk, hp]
      simp [findEntry_cons, hp, hk, hkb]
    · simp only [if_pos hp, findEntry_cons, hk, if_false, ih]
    · have hkb : k ≠ b := fun h => hp (hk.trans h)
      simp [findEntry_cons, hp, hk, hkb]
    · simp only [if_neg hp, findEntry_cons, hk, if_false, ih]

theorem touchBlock_loadTasks (b : Int) (st : ModelState) :
    (touchBlock b st).loadTasks = st.loadTasks := rfl

theorem touchBlock_findEntry (b k : Int) (st : ModelState) :
    findEntry k (touchBlock b st).dataBlocks =
      (findEntry k st.dataBlocks).map
        (fun blk => if k = b then { blk with lastAccessTime := st.now } else blk) := by
  unfold touchBlock tick
  exact findEntry_touchMap st.now b k st.dataBlocks

theorem touchBlock_shape (b : Int) (st : ModelState) :
    (touchBlock b st).dataBlocks.map (fun p => (p.1, p.2.isValid, p.2.data)) =
      st.dataBlocks.map (fun p => (p.1, p.2.isValid, p.2.data)) := by
  unfold touchBlock tick
  simp only [List.map_map]
  refine List.map_congr_left ?_
  intro p _
  by_cases hp : p.1 = b <;> simp [hp]

theorem loadBlock_of_valid (st : ModelState) (ds : Source) (b : Int) (p : Bool)
    (hds : st.dataSource = some ds) (hvalid : blockValidAt st b = true) :
    loadBlock b p st = touchBlock b st := by
  simp only [loadBlock, hds]
  rw [if_pos hvalid]

theorem dataRead_short_eq (st : ModelState) (ds : Source) (row col : Int) (role : ItemRole)
    (hds : st.dataSource = some ds) (hrole : role ≠ ItemRole.other)
    (hr0 : 0 ≤ row) (hr1 : row < ds.rowCount) (hc0 : 0 ≤ col) (hc1 : col < ds.columnCount)
    (blk : DataBlock) (hfe : findEntry (getBlockIndex row st) st.dataBlocks = some blk)
    (hvalid : blk.isValid = true)
    (hshort : (blk.data.length : Int) ≤ row.tmod st.blockSize
      ∨ ∃ h1 : (row.tmod st.blockSize).toNat < blk.data.length,
          ((blk.data.get ⟨(row.tmod st.blockSize).toNat, h1⟩).length : Int) ≤ col) :
    dataRead row col role st =
      (QVariant.str "......",
        loadBlock (getBlockIndex row st) true (touchBlock (getBlockIndex row st) st)) := by
  have hmod0 : 0 ≤ row.tmod st.blockSize := Int.tmod_nonneg _ hr0
  cases role with
  | other => exact absurd rfl hrole
  | display =>
    simp only [dataRead, hds, hfe]
    rw [if_neg (by omega)]
    simp only [hvalid, if_true]
    rcases hshort with hs | ⟨h1, h2⟩
    · rw [dif_neg (by omega : ¬ (row.tmod st.blockSize).toNat < blk.data.length)]
    · rw [dif_pos h1, dif_neg (by omega :
        ¬ col.toNat < (blk.data.get ⟨(row.tmod st.blockSize).toNat, h1⟩).length)]
  | edit =>
    simp only [dataRead, hds, hfe]
    rw [if_neg (by omega)]
    simp only [hvalid, if_true]
    rcases hshort with hs | ⟨h1, h2⟩
    · rw [dif_neg (by omega : ¬ (row.tmod st.blockSize).toNat < blk.data.length)]
    · rw [dif_pos h1, dif_neg (by omega :
        ¬ col.toNat < (blk.data.get ⟨(row.tmod st.blockSize).toNat, h1⟩).length)]

/-- Claim C9 (amended): when the owning block is valid but its stored row
list is shorter than the row's in-block index (or the stored row has fewer
columns than the requested in-range column), the cell read returns the
pending placeholder `"......"`; the `loadBlock` it triggers returns without
scheduling any load (the block is already valid, so only its access time
changes), the read leaves the pending-load table unchanged, and an immediate
re-read still returns the placeholder.  The placeholder therefore survives
every further read; it can end only once the block's entry is dropped — by
`setDataSource`, `setBlockSize`, or cleanup eviction followed by a reload —
not exclusively by the two reset operations the claim names. -/
theorem dataRead_short_block_persists (st : ModelState) (ds : Source) (row col : Int)
    (role : ItemRole)
    (hds : st.dataSource = some ds) (hrole : role ≠ ItemRole.other)
    (hr0 : 0 ≤ row) (hr1 : row < ds.rowCount) (hc0 : 0 ≤ col) (hc1 : col < ds.columnCount)
    (blk : DataBlock) (hfe : findEntry (getBlockIndex row st) st.dataBlocks = some blk)
    (hvalid : blk.isValid = true)
    (hshort : (blk.data.length : Int) ≤ row.tmod st.blockSize
      ∨ ∃ h1 : (row.tmod st.blockSize).toNat < blk.data.length,
          ((blk.data.get ⟨(row.tmod st.blockSize).toNat, h1⟩).length : Int) ≤ col) :
    (dataRead row col role st).1 = QVariant.str "......"
    ∧ (loadBlock (getBlockIndex row st) true st).loadTasks = st.loadTasks
    ∧ (loadBlock (getBlockIndex row st) true st).dataBlocks.map
        (fun p => (p.1, p.2.isValid, p.2.data))
        = st.dataBlocks.map (fun p => (p.1, p.2.isValid, p.2.data))
    ∧ (dataRead row col role st).2.loadTasks = st.loadTasks
    ∧ (dataRead row col role (dataRead row col role st).2).1 = QVariant.str "......" := by
  have hvb : blockValidAt st (getBlockIndex row st) = true := by
    unfold blockValidAt
    rw [hfe]
    exact hvalid
  have heq := dataRead_short_eq st ds row col role hds hrole hr0 hr1 hc0 hc1 blk hfe hvalid hshort
  have hfe1 : findEntry (getBlockIndex row st) (touchBlock (getBlockIndex row st) st).dataBlocks
      = some { blk with lastAccessTime := st.now } := by
    rw [touchBlock_findEntry, hfe]
    simp
  have hvb1 : blockValidAt (touchBlock (getBlockIndex row st) st) (getBlockIndex row st) = true := by
    unfold blockValidAt
    rw [hfe1]
    exact hvalid
  have hload1 : loadBlock (getBlockIndex row st) true (touchBlock (getBlockIndex row st) st)
      = touchBlock (getBlockIndex row st) (touchBlock (getBlockIndex row st) st) :=
    loadBlock_of_valid _ ds _ true hds hvb1
  have hfe2 : findEntry (getBlockIndex row st)
      (touchBlock (getBlockIndex row st) (touchBlock (getBlockIndex row st) st)).dataBlocks
      = some { blk with lastAccessTime := (touchBlock (getBlockIndex row st) st).now } := by
    rw [touchBlock_findEntry, hfe1]
    simp
  refine ⟨by rw [heq], ?_, ?_, ?_, ?_⟩
  · rw [loadBlock_of_valid st ds _ true hds hvb, touchBlock_loadTasks]
  · rw [loadBlock_of_valid st ds _ true hds hvb]
    exact touchBlock_shape _ st
  · rw [heq, hload1, touchBlock_loadTasks, touchBlock_loadTasks]
  · rw [heq]
    simp only [hload1]
    have := dataRead_short_eq
      (touchBlock (getBlockIndex row st) (touchBlock (getBlockIndex row st) st)) ds row col role
      hds hrole hr0 hr1 hc0 hc1
      { blk with lastAccessTime := (touchBlock (getBlockIndex row st) st).now } hfe2 hvalid hshort
    rw [this]

theorem dataRead_short_block_persists_witness :
    (dataRead 0 0 .display shortBlockState).1 = QVariant.str "......"
    ∧ (dataRead 0 0 .display (dataRead 0 0 .display shortBlockState).2).1
        = QVariant.str "......" := by
  have h := dataRead_short_block_persists shortBlockState sourceC9 0 0 .display (by decide)
    (by decide) (by decide) (by decide) (by decide) (by decide) shortBlk (by decide) (by decide)
    (Or.inl (by decide))
  exact ⟨h.1, h.2.2.2.2⟩

/-- Claim C9 counterexample for the "persists until reset" consequence: in a
run whose only operations after the short block exists are `setVisibleRange`,
cell reads and load merges — never `setDataSource` or `setBlockSize` — the
placeholder does not persist: the cleanup pass evicts the valid-but-empty
block 0, the next read schedules a fresh load, and after its merge the same
cell read returns the loaded value `"v"` instead of the placeholder. -/
theorem dataRead_short_block_claim_counterexample :
    blockValidAt c9base 0 = true
    ∧ (dataRead 0 0 .display c9base).1 = QVariant.str "......"
    ∧ blockValidAt c9afterScroll 0 = false
    ∧ (dataRead 0 0 .display c9afterReload).1 = QVariant.str "v"
    ∧ QVariant.str "v" ≠ QVariant.str "......" := by
  exact ⟨by decide, by decide, by decide, by decide, by decide⟩

/-! ### Claim C3: pending-load de-duplication -/


theorem loadBlock_cases (b : Int) (p : Bool) (st : ModelState) :
    loadBlock b p st = st ∨ loadBlock b p st = touchBlock b st ∨
    loadBlock b p st = { st with loadTasks := hashInsert b true st.loadTasks } := by
  unfold loadBlock
  rcases hds : st.dataSource with _ | ds
  · left
    rfl
  · dsimp only
    by_cases h1 : blockValidAt st b = true
    · rw [if_pos h1]
      right; left; rfl
    · rw [if_neg h1]
      by_cases h2 : taskRunningAt st b = true
      · rw [if_pos h2]
        left; rfl
      · rw [if_neg h2]
        by_cases h3 : b * st.blockSize ≥ ds.rowCount
        · rw [if_pos h3]
          left; rfl
        · rw [if_neg h3]
          by_cases h4 : (if b * st.blockSize + st.blockSize > ds.rowCount
              then ds.rowCount - b * st.blockSize else st.blockSize) ≤ 0
          · rw [if_pos h4]
            left; rfl
          · rw [if_neg h4]
            right; right; rfl

theorem touchBlock_keys (b : Int) (st : ModelState) :
    (touchBlock b st).dataBlocks.map Prod.fst = st.dataBlocks.map Prod.fst := by
  unfold touchBlock tick
  simp only [List.map_map]
  refine List.map_congr_left ?_
  intro q _
  by_cases hq : q.1 = b <;> simp [hq]

theorem touchBlock_blockValidAt (b k : Int) (st : ModelState) :
    blockValidAt (touchBlock b st) k = blockValidAt st k := by
  unfold blockValidAt
  rw [touchBlock_findEntry]
  rcases findEntry k st.dataBlocks with _ | blk
  · rfl
  · by_cases hk : k = b <;> simp [hk]

theorem touchBlock_fields (b : Int) (st : ModelState) :
    (touchBlock b st).dataSource = st.dataSource
    ∧ (touchBlock b st).blockSize = st.blockSize
    ∧ (touchBlock b st).preloadPolicy = st.preloadPolicy
    ∧ (touchBlock b st).preloadBlocksAhead = st.preloadBlocksAhead
    ∧ (touchBlock b st).preloadBlocksBehind = st.preloadBlocksBehind
    ∧ (touchBlock b st).visibleStartRow = st.visibleStartRow
    ∧ (touchBlock b st).visibleEndRow = st.visibleEndRow
    ∧ (touchBlock b st).loadingStatus = st.loadingStatus
    ∧ (touchBlock b st).loadTasks = st.loadTasks :=
  ⟨rfl, rfl, rfl, rfl, rfl, rfl, rfl, rfl, rfl⟩

theorem loadBlock_fields (b : Int) (p : Bool) (st : ModelState) :
    (loadBlock b p st).dataSource = st.dataSource
    ∧ (loadBlock b p st).blockSize = st.blockSize
    ∧ (loadBlock b p st).preloadPolicy = st.preloadPolicy
    ∧ (loadBlock b p st).preloadBlocksAhead = st.preloadBlocksAhead
    ∧ (loadBlock b p st).preloadBlocksBehind = st.preloadBlocksBehind
    ∧ (loadBlock b p st).visibleStartRow = st.visibleStartRow
    ∧ (loadBlock b p st).visibleEndRow = st.visibleEndRow
    ∧ (loadBlock b p st).loadingStatus = st.loadingStatus := by
  rcases loadBlock_cases b p st with h | h | h <;> rw [h] <;>
    exact ⟨rfl, rfl, rfl, rfl, rfl, rfl, rfl, rfl⟩

theorem loadBlock_blockValidAt (b k : Int) (p : Bool) (st : ModelState) :
    blockValidAt (loadBlock b p st) k = blockValidAt st k := by
  rcases loadBlock_cases b p st with h | h | h <;> rw [h]
  · exact touchBlock_blockValidAt b k st
  · rfl

theorem loadBlock_keys (b : Int) (p : Bool) (st : ModelState) :
    (loadBlock b p st).dataBlocks.map Prod.fst = st.dataBlocks.map Prod.fst := by
  rcases loadBlock_cases b p st with h | h | h <;> rw [h]
  exact touchBlock_keys b st

theorem loadBlock_loadTasks_cases (b : Int) (p : Bool) (st : ModelState) :
    (loadBlock b p st).loadTasks = st.loadTasks
    ∨ (loadBlock b p st).loadTasks = hashInsert b true st.loadTasks := by
  rcases loadBlock_cases b p st with h | h | h <;> rw [h]
  · left; rfl
  · left; rfl
  · right; rfl

theorem setLoadingStatus_fields (s : LoadingStatus) (st : ModelState) :
    (setLoadingStatus s st).dataSource = st.dataSource
    ∧ (setLoadingStatus s st).blockSize = st.blockSize
    ∧ (setLoadingStatus s st).preloadPolicy = st.preloadPolicy
    ∧ (setLoadingStatus s st).preloadBlocksAhead = st.preloadBlocksAhead
    ∧ (setLoadingStatus s st).preloadBlocksBehind = st.preloadBlocksBehind
    ∧ (setLoadingStatus s st).visibleStartRow = st.visibleStartRow
    ∧ (setLoadingStatus s st).visibleEndRow = st.visibleEndRow
    ∧ (setLoadingStatus s st).dataBlocks = st.dataBlocks
    ∧ (setLoadingStatus s st).loadTasks = st.loadTasks := by
  unfold setLoadingStatus
  by_cases h : st.loadingStatus ≠ s
  · rw [if_pos h]
    exact ⟨rfl, rfl, rfl, rfl, rfl, rfl, rfl, rfl, rfl⟩
  · rw [if_neg h]
    exact ⟨rfl, rfl, rfl, rfl, rfl, rfl, rfl, rfl, rfl⟩

theorem setLoadingStatus_loadTasks (s : LoadingStatus) (st : ModelState) :
    (setLoadingStatus s st).loadTasks = st.loadTasks := by
  unfold setLoadingStatus
  split <;> rfl

theorem setLoadingStatus_dataBlocks (s : LoadingStatus) (st : ModelState) :
    (setLoadingStatus s st).dataBlocks = st.dataBlocks := by
  unfold setLoadingStatus
  split <;> rfl

theorem findEntry_hashRemove_self (k : Int) (m : List (Int × β)) :
    findEntry k (hashRemove k m) = none := by
  rw [findEntry_eq_none_iff]
  intro hmem
  rw [List.mem_map] at hmem
  obtain ⟨q, hq, hfst⟩ := hmem
  have hne : q.1 ≠ k := by simpa using (List.mem_filter.mp hq).2
  exact hne hfst

theorem onBlockLoaded_loadTasks (b : Int) (data : List Row) (st : ModelState) (ds : Source)
    (hds : st.dataSource = some ds) :
    (onBlockLoaded b data st).loadTasks = hashRemove b st.loadTasks := by
  unfold onBlockLoaded
  rw [hds]
  dsimp only
  split
  · rw [setLoadingStatus_loadTasks]
    rfl
  · rfl

theorem onBlockLoaded_dataBlocks (b : Int) (data : List Row) (st : ModelState) (ds : Source)
    (hds : st.dataSource = some ds) :
    (onBlockLoaded b data st).dataBlocks =
      hashInsert b
        { getBlockOrNew b st with data := data, isValid := true, lastAccessTime := st.now }
        st.dataBlocks := by
  unfold onBlockLoaded
  rw [hds]
  dsimp only
  split
  · rw [setLoadingStatus_dataBlocks]
    rfl
  · rfl

theorem foldl_preserves {P : ModelState → Prop} (f : ModelState → Int → ModelState)
    (hf : ∀ s b, P s → P (f s b)) :
    ∀ (l : List Int) (s : ModelState), P s → P (l.foldl f s)
  | [], _, h => h
  | b :: rest, s, h => foldl_preserves f hf rest (f s b) (hf s b h)

theorem modelInv_touchBlock (b : Int) (st : ModelState) (h : ModelInv st) :
    ModelInv (touchBlock b st) := by
  refine ⟨h.1, ?_⟩
  rw [touchBlock_keys]
  exact h.2

theorem modelInv_loadBlock (b : Int) (p : Bool) (st : ModelState) (h : ModelInv st) :
    ModelInv (loadBlock b p st) := by
  rcases loadBlock_cases b p st with he | he | he <;> rw [he]
  · exact h
  · exact modelInv_touchBlock b st h
  · exact ⟨nodup_keys_hashInsert b true st.loadTasks h.1, h.2⟩

theorem modelInv_setLoadingStatus (s : LoadingStatus) (st : ModelState) (h : ModelInv st) :
    ModelInv (setLoadingStatus s st) := by
  constructor
  · rw [setLoadingStatus_loadTasks]
    exact h.1
  · rw [setLoadingStatus_dataBlocks]
    exact h.2

theorem modelInv_preloadBlocks (c : Int) (st : ModelState) (h : ModelInv st) :
    ModelInv (preloadBlocks c st) := by
  unfold preloadBlocks
  rcases hds : st.dataSource with _ | ds
  · exact h
  · dsimp only
    refine foldl_preserves _ ?_ _ _ ?_
    · intro s b hs
      split
      · exact modelInv_loadBlock b false s hs
      · exact hs
    · split
      · exact modelInv_setLoadingStatus _ _ h
      · exact h

theorem modelInv_cleanupBlocks (st : ModelState) (h : ModelInv st) :
    ModelInv (cleanupBlocks st) := by
  unfold cleanupBlocks
  rcases hds : st.dataSource with _ | ds
  · exact h
  · dsimp only
    split
    · exact h
    · exact ⟨h.1, nodup_keys_filter _ _ h.2⟩

theorem modelInv_onBlockLoaded (b : Int) (data : List Row) (st : ModelState) (h : ModelInv st) :
    ModelInv (onBlockLoaded b data st) := by
  rcases hds : st.dataSource with _ | ds
  · have he : onBlockLoaded b data st = st := by
      unfold onBlockLoaded
      rw [hds]
    rw [he]
    exact h
  · constructor
    · rw [onBlockLoaded_loadTasks b data st ds hds]
      exact nodup_keys_filter _ _ h.1
    · rw [onBlockLoaded_dataBlocks b data st ds hds]
      exact nodup_keys_hashInsert _ _ _ h.2

theorem modelInv_ite (C : Prop) [Decidable C] (f : ModelState → ModelState)
    (hf : ∀ s2, ModelInv s2 → ModelInv (f s2)) (st : ModelState) (h : ModelInv st) :
    ModelInv (if C then f st else st) := by
  split
  · exact hf st h
  · exact h

theorem modelInv_setVisibleRange (s e : Int) (st : ModelState) (h : ModelInv st) :
    ModelInv (setVisibleRange s e st) := by
  unfold setVisibleRange
  rcases hds : st.dataSource with _ | ds
  · exact h
  · dsimp only
    split
    · exact h
    · apply modelInv_ite _ (setLoadingStatus .Idle) (fun s2 hs => modelInv_setLoadingStatus _ s2 hs)
      apply modelInv_cleanupBlocks
      apply modelInv_preloadBlocks
      apply foldl_preserves (fun acc b => loadBlock b true acc)
        (fun s2 b hs => modelInv_loadBlock b true s2 hs)
      apply modelInv_ite _ (setLoadingStatus .LoadingVisible)
        (fun s2 hs => modelInv_setLoadingStatus _ s2 hs)
      exact ⟨h.1, h.2⟩

theorem modelInv_updatePreloadBlockCounts (st : ModelState) (h : ModelInv st) :
    ModelInv (updatePreloadBlockCounts st) := by
  unfold updatePreloadBlockCounts
  cases st.preloadPolicy <;> exact ⟨h.1, h.2⟩

theorem modelInv_setScrollSpeed (v : ℚ) (st : ModelState) (h : ModelInv st) :
    ModelInv (setScrollSpeed v st) := by
  unfold setScrollSpeed
  dsimp only
  split
  · exact ⟨h.1, h.2⟩
  · split
    · exact modelInv_updatePreloadBlockCounts _ ⟨h.1, h.2⟩
    · exact ⟨h.1, h.2⟩

theorem modelInv_setPreloadPolicy (p : PreloadPolicy) (st : ModelState) (h : ModelInv st) :
    ModelInv (setPreloadPolicy p st) := by
  unfold setPreloadPolicy
  split
  · dsimp only
    split
    · apply modelInv_preloadBlocks
      exact modelInv_updatePreloadBlockCounts _ ⟨h.1, h.2⟩
    · exact modelInv_updatePreloadBlockCounts _ ⟨h.1, h.2⟩
  · exact h

theorem modelInv_setBlockSize (n : Int) (st : ModelState) (h : ModelInv st) :
    ModelInv (setBlockSize n st) := by
  unfold setBlockSize
  split
  · exact h
  · split
    · exact ⟨List.nodup_nil, List.nodup_nil⟩
    · exact h

theorem modelInv_setDataSource (src : Option Source) (st : ModelState) :
    ModelInv (setDataSource src st) :=
  ⟨List.nodup_nil, List.nodup_nil⟩

theorem modelInv_jumpToRow (r : Int) (st : ModelState) (h : ModelInv st) :
    ModelInv (jumpToRow r st) := by
  unfold jumpToRow
  rcases hds : st.dataSource with _ | ds
  · exact h
  · dsimp only
    split
    · exact h
    · exact modelInv_setVisibleRange _ _ _ h

theorem dataRead_snd_cases (row col : Int) (role : ItemRole) (st : ModelState) :
    (dataRead row col role st).2 = st
    ∨ (∃ b, (dataRead row col role st).2 = loadBlock b true st)
    ∨ (∃ b, (dataRead row col role st).2 = loadBlock b true (touchBlock b st))
    ∨ (∃ b, (dataRead row col role st).2 = touchBlock b st) := by
  unfold dataRead
  rcases hds : st.dataSource with _ | ds
  · left
    rfl
  · dsimp only
    split
    · left
      rfl
    · cases role with
      | other => left; rfl
      | display =>
        rcases hfe : findEntry (getBlockIndex row st) st.dataBlocks with _ | blk
        · right; left
          exact ⟨getBlockIndex row st, rfl⟩
        · dsimp only
          split
          · split
            · split
              · right; right; right
                exact ⟨getBlockIndex row st, rfl⟩
              · right; right; left
                exact ⟨getBlockIndex row st, rfl⟩
            · right; right; left
              exact ⟨getBlockIndex row st, rfl⟩
          · right; left
            exact ⟨getBlockIndex row st, rfl⟩
      | edit =>
        rcases hfe : findEntry (getBlockIndex row st) st.dataBlocks with _ | blk
        · right; left
          exact ⟨getBlockIndex row st, rfl⟩
        · dsimp only
          split
          · split
            · split
              · right; right; right
                exact ⟨getBlockIndex row st, rfl⟩
              · right; right; left
                exact ⟨getBlockIndex row st, rfl⟩
            · right; right; left
              exact ⟨getBlockIndex row st, rfl⟩
          · right; left
            exact ⟨getBlockIndex row st, rfl⟩

theorem modelInv_dataRead (row col : Int) (role : ItemRole) (st : ModelState) (h : ModelInv st) :
    ModelInv (dataRead row col role st).2 := by
  rcases dataRead_snd_cases row col role st with he | ⟨b, he⟩ | ⟨b, he⟩ | ⟨b, he⟩ <;> rw [he]
  · exact h
  · exact modelInv_loadBlock b true st h
  · exact modelInv_loadBlock b true _ (modelInv_touchBlock b st h)
  · exact modelInv_touchBlock b st h

theorem modelInv_initial : ModelInv initialModel :=
  ⟨List.nodup_nil, List.nodup_nil⟩

theorem modelInv_of_reachable (st : ModelState) (h : ModelReachable st) : ModelInv st := by
  induction h with
  | init => exact modelInv_initial
  | step hr hs ih =>
    cases hs with
    | sourceStep src => exact modelInv_setDataSource src _
    | sizeStep n => exact modelInv_setBlockSize n _ ih
    | policyStep p => exact modelInv_setPreloadPolicy p _ ih
    | rangeStep s e => exact modelInv_setVisibleRange s e _ ih
    | speedStep v => exact modelInv_setScrollSpeed v _ ih
    | jumpStep r => exact modelInv_jumpToRow r _ ih
    | readStep row col role => exact modelInv_dataRead row col role _ ih
    | mergeStep b data => exact modelInv_onBlockLoaded b data _ ih

/-- Claim C3: in every reachable state the pending-load table has at most
one entry per block index (its key list is duplicate-free, which also holds
across two rapid successive `setVisibleRange` calls for overlapping ranges,
since those are reachable-state transitions); `loadBlock` issues no new load
for a block that is already valid (the pending table is unchanged) or whose
load task is already running (the whole state is unchanged); and merging a
block's loaded result removes its pending entry. -/
theorem pending_load_dedup (st : ModelState) (h : ModelReachable st) :
    (st.loadTasks.map Prod.fst).Nodup
    ∧ (∀ b p, blockValidAt st b = true → (loadBlock b p st).loadTasks = st.loadTasks)
    ∧ (∀ b p, blockValidAt st b = false → taskRunningAt st b = true → loadBlock b p st = st)
    ∧ (∀ b data ds, st.dataSource = some ds →
        findEntry b (onBlockLoaded b data st).loadTasks = none) := by
  refine ⟨(modelInv_of_reachable st h).1, ?_, ?_, ?_⟩
  · intro b p hvb
    unfold loadBlock
    rcases hds : st.dataSource with _ | ds
    · rfl
    · dsimp only
      rw [if_pos hvb]
      rfl
  · intro b p hvb hrun
    unfold loadBlock
    rcases hds : st.dataSource with _ | ds
    · rfl
    · dsimp only
      rw [if_neg (by simp [hvb]), if_pos hrun]
  · intro b data ds hds
    rw [onBlockLoaded_loadTasks b data st ds hds]
    exact findEntry_hashRemove_self b st.loadTasks

theorem pending_load_dedup_witness :
    (dataReadTestState.loadTasks.map Prod.fst).Nodup
    ∧ findEntry 0 (onBlockLoaded 0 [] dataReadTestState).loadTasks = none := by
  have hr : ModelReachable dataReadTestState :=
    ModelReachable.step ModelReachable.init (ModelStep.sourceStep initialModel (some sourceSmall))
  have h := pending_load_dedup dataReadTestState hr
  exact ⟨h.1, h.2.2.2 0 [] sourceSmall rfl⟩

/-! ### Claims C4 and C1: cleanup retention and eviction safety -/


theorem mem_take_of_sorted (s : List (Nat × Int)) (hs : List.Pairwise timeDesc s)
    (hnd : (s.map Prod.fst).Nodup) (k : Nat) (x : Nat × Int) :
    x ∈ s.take k ↔ x ∈ s ∧ (s.filter (fun y => x.1 < y.1)).length < k := by
  induction s generalizing k with
  | nil => simp
  | cons a t ih =>
    rcases List.pairwise_cons.mp hs with ⟨ha, hs2⟩
    simp only [List.map_cons, List.nodup_cons] at hnd
    cases k with
    | zero => simp
    | succ k =>
      rw [List.take_succ_cons]
      by_cases hxa : x = a
      · subst hxa
        have hfilt : (x :: t).filter (fun y => decide (x.1 < y.1)) = [] := by
          rw [List.filter_eq_nil_iff]
          intro y hy
          rcases List.mem_cons.mp hy with h | h
          · subst h
            simp
          · have hle := ha y h
            unfold timeDesc at hle
            simp
            omega
        simp [hfilt]
      · rw [List.mem_cons]
        simp only [hxa, false_or]
        rw [ih hs2 hnd.2 k]
        constructor
        · rintro ⟨hmem, hcnt⟩
          have hlt : x.1 < a.1 := by
            have hle := ha x hmem
            unfold timeDesc at hle
            have hne : x.1 ≠ a.1 := by
              intro he
              exact hnd.1 (he ▸ List.mem_map.mpr ⟨x, hmem, rfl⟩)
            omega
          refine ⟨List.mem_cons_of_mem a hmem, ?_⟩
          rw [List.filter_cons, if_pos (by simpa using hlt)]
          simpa using hcnt
        · rintro ⟨hmem, hcnt⟩
          rcases List.mem_cons.mp hmem with h | h
          · exact absurd h hxa
          · have hlt : x.1 < a.1 := by
              have hle := ha x h
              unfold timeDesc at hle
              have hne : x.1 ≠ a.1 := by
                intro he
                exact hnd.1 (he ▸ List.mem_map.mpr ⟨x, h, rfl⟩)
              omega
            refine ⟨h, ?_⟩
            rw [List.filter_cons, if_pos (by simpa using hlt)] at hcnt
            simpa using hcnt

theorem mem_take_insertionSort (l : List (Nat × Int)) (hnd : (l.map Prod.fst).Nodup)
    (k : Nat) (x : Nat × Int) :
    x ∈ (List.insertionSort timeDesc l).take k ↔
      x ∈ l ∧ (l.filter (fun y => x.1 < y.1)).length < k := by
  have hperm := List.perm_insertionSort timeDesc l
  have hsorted : List.Pairwise timeDesc (List.insertionSort timeDesc l) :=
    List.sorted_insertionSort timeDesc l
  have hnd2 : ((List.insertionSort timeDesc l).map Prod.fst).Nodup :=
    ((hperm.map Prod.fst).nodup_iff).mpr hnd
  rw [mem_take_of_sorted _ hsorted hnd2 k x, hperm.mem_iff,
    (hperm.filter (fun y => decide (x.1 < y.1))).length_eq]

theorem cleanupBlocks_of_small (st : ModelState) (ds : Source)
    (hds : st.dataSource = some ds) (hlen : st.dataBlocks.length ≤ 10) :
    cleanupBlocks st = st := by
  unfold cleanupBlocks
  rw [hds]
  dsimp only
  rw [if_pos hlen]

theorem cleanupBlocks_of_large (st : ModelState) (ds : Source)
    (hds : st.dataSource = some ds) (hlen : ¬ st.dataBlocks.length ≤ 10) :
    cleanupBlocks st =
      { st with dataBlocks := st.dataBlocks.filter (fun p => (blocksToKeep st).contains p.1) } := by
  unfold cleanupBlocks
  rw [hds]
  dsimp only
  rw [if_neg hlen]

theorem mem_keepWindowList (st : ModelState) (b : Int) :
    b ∈ keepWindowList st ↔ inWindow st b := by
  unfold keepWindowList inWindow
  exact mem_intRange b _ _

theorem contains_blocksToKeep_of_window (st : ModelState) (b : Int) (hw : inWindow st b) :
    (blocksToKeep st).contains b = true := by
  rw [List.elem_iff]
  unfold blocksToKeep
  exact List.mem_append_left _ ((mem_keepWindowList st b).mpr hw)

theorem mem_blockAccessTimes (st : ModelState) (x : Nat × Int) :
    x ∈ blockAccessTimes st ↔
      ∃ q ∈ st.dataBlocks, ¬ inWindow st q.1 ∧ (q.2.lastAccessTime, q.1) = x := by
  unfold blockAccessTimes
  rw [List.mem_map]
  constructor
  · rintro ⟨q, hq, rfl⟩
    rcases List.mem_filter.mp hq with ⟨hq1, hq2⟩
    refine ⟨q, hq1, ?_, rfl⟩
    intro hw
    have hq2b : ¬ (keepWindowList st).contains q.1 = true := by simpa using hq2
    exact hq2b (by rw [List.elem_iff]; exact (mem_keepWindowList st q.1).mpr hw)
  · rintro ⟨q, hq1, hq2, rfl⟩
    refine ⟨q, List.mem_filter.mpr ⟨hq1, ?_⟩, rfl⟩
    have hcont : ¬ (keepWindowList st).contains q.1 = true := by
      rw [List.elem_iff]
      intro hmem
      exact hq2 ((mem_keepWindowList st q.1).mp hmem)
    simpa using hcont

/-- Claim C4: `cleanupBlocks` is a no-op while at most 10 blocks are
resident; otherwise — assuming pairwise distinct access times, under which
the modelled sort coincides with the unstable `std::sort` of the source — it
retains exactly the current prefetch window plus the 10 most recently
accessed (by `lastAccessTime`, descending) blocks outside that window and
evicts every other block: an entry survives if and only if its index lies in
the window or fewer than 10 outside-window blocks have a strictly later
access time.  In particular every resident block of the prefetch window is
still resident afterwards (proved without the distinctness assumption). -/
theorem cleanupBlocks_spec (st : ModelState) (ds : Source) (hds : st.dataSource = some ds) :
    (st.dataBlocks.length ≤ 10 → cleanupBlocks st = st)
    ∧ (10 < st.dataBlocks.length →
        (∀ b, inWindow st b → blockValidAt st b = true → blockValidAt (cleanupBlocks st) b = true)
        ∧ (((blockAccessTimes st).map Prod.fst).Nodup →
            (st.dataBlocks.map Prod.fst).Nodup →
            ∀ p ∈ st.dataBlocks,
              (hasKey p.1 (cleanupBlocks st).dataBlocks = true ↔
                inWindow st p.1 ∨ countLaterOutside st p.2.lastAccessTime < 10))) := by
  refine ⟨fun hlen => cleanupBlocks_of_small st ds hds hlen, fun hlen => ⟨?_, ?_⟩⟩
  · intro b hw hv
    rw [cleanupBlocks_of_large st ds hds (by omega)]
    unfold blockValidAt at hv ⊢
    dsimp only
    rw [findEntry_filter_key ((blocksToKeep st).contains) b st.dataBlocks,
      if_pos (contains_blocksToKeep_of_window st b hw)]
    exact hv
  · intro hndT hndK p hp
    rw [cleanupBlocks_of_large st ds hds (by omega)]
    unfold hasKey
    dsimp only
    rw [findEntry_filter_key ((blocksToKeep st).contains) p.1 st.dataBlocks]
    constructor
    · intro hsome
      by_cases hc : (blocksToKeep st).contains p.1 = true
      · rw [List.elem_iff] at hc
        rcases List.mem_append.mp hc with hcw | hct
        · exact Or.inl ((mem_keepWindowList st p.1).mp hcw)
        · right
          rcases List.mem_map.mp hct with ⟨x, hx, hx2⟩
          rcases (mem_take_insertionSort (blockAccessTimes st) hndT 10 x).mp hx with ⟨hxm, hxc⟩
          rcases (mem_blockAccessTimes st x).mp hxm with ⟨q, hq1, hq2, hq3⟩
          have hq1fst : q.1 = p.1 := by rw [← hx2, ← hq3]
          have hfq := findEntry_of_mem_nodup st.dataBlocks q hq1 hndK
          have hfp := findEntry_of_mem_nodup st.dataBlocks p hp hndK
          rw [hq1fst] at hfq
          have hq2eq : q.2 = p.2 := Option.some.inj (hfq.symm.trans hfp)
          have hx1 : x.1 = p.2.lastAccessTime := by
            rw [← hq3, ← hq2eq]
          unfold countLaterOutside
          rw [← hx1]
          exact hxc
      · rw [if_neg hc] at hsome
        simp at hsome
    · intro hdisj
      have hc : (blocksToKeep st).contains p.1 = true := by
        by_cases hw : inWindow st p.1
        · exact contains_blocksToKeep_of_window st p.1 hw
        · rcases hdisj with hdw | hdc
          · exact absurd hdw hw
          · rw [List.elem_iff]
            unfold blocksToKeep
            refine List.mem_append_right _ ?_
            refine List.mem_map.mpr ⟨(p.2.lastAccessTime, p.1), ?_, rfl⟩
            refine (mem_take_insertionSort (blockAccessTimes st) hndT 10 _).mpr ⟨?_, ?_⟩
            · exact (mem_blockAccessTimes st _).mpr ⟨p, hp, hw, rfl⟩
            · exact hdc
      rw [if_pos hc]
      exact (hasKey_iff p.1 st.dataBlocks).mpr (List.mem_map.mpr ⟨p, hp, rfl⟩)

theorem touchBlock_cfg (b : Int) (s : ModelState) : cfg (touchBlock b s) = cfg s := rfl

theorem loadBlock_cfg (b : Int) (p : Bool) (s : ModelState) : cfg (loadBlock b p s) = cfg s := by
  rcases loadBlock_cases b p s with h | h | h <;> rw [h] <;> rfl

theorem setLoadingStatus_cfg (ls : LoadingStatus) (s : ModelState) :
    cfg (setLoadingStatus ls s) = cfg s := by
  unfold setLoadingStatus
  split <;> rfl

theorem statusIte_cfg (C : Prop) [Decidable C] (ls : LoadingStatus) (s : ModelState) :
    cfg (if C then setLoadingStatus ls s else s) = cfg s := by
  split
  · exact setLoadingStatus_cfg ls s
  · rfl

theorem blockValidAt_setLoadingStatus (ls : LoadingStatus) (s : ModelState) (k : Int) :
    blockValidAt (setLoadingStatus ls s) k = blockValidAt s k := by
  unfold blockValidAt
  rw [setLoadingStatus_dataBlocks]

theorem blockValidAt_statusIte (C : Prop) [Decidable C] (ls : LoadingStatus)
    (s : ModelState) (k : Int) :
    blockValidAt (if C then setLoadingStatus ls s else s) k = blockValidAt s k := by
  split
  · exact blockValidAt_setLoadingStatus ls s k
  · rfl

theorem foldl_cfg (f : ModelState → Int → ModelState)
    (hf : ∀ s b, cfg (f s b) = cfg s) :
    ∀ (l : List Int) (s : ModelState), cfg (l.foldl f s) = cfg s
  | [], _ => rfl
  | b :: rest, s => (foldl_cfg f hf rest (f s b)).trans (hf s b)

theorem foldl_blockValidAt (f : ModelState → Int → ModelState)
    (hf : ∀ s b k, blockValidAt (f s b) k = blockValidAt s k) :
    ∀ (l : List Int) (s : ModelState) (k : Int),
      blockValidAt (l.foldl f s) k = blockValidAt s k
  | [], _, _ => rfl
  | b :: rest, s, k => (foldl_blockValidAt f hf rest (f s b) k).trans (hf s b k)

theorem preloadBlocks_cfg (c : Int) (s : ModelState) : cfg (preloadBlocks c s) = cfg s := by
  unfold preloadBlocks
  rcases hds : s.dataSource with _ | ds
  · rfl
  · dsimp only
    refine (foldl_cfg _ ?_ _ _).trans (statusIte_cfg _ .LoadingPreload s)
    intro s2 b
    split
    · exact loadBlock_cfg b false s2
    · rfl

theorem preloadBlocks_blockValidAt (c : Int) (s : ModelState) (k : Int) :
    blockValidAt (preloadBlocks c s) k = blockValidAt s k := by
  unfold preloadBlocks
  rcases hds : s.dataSource with _ | ds
  · rfl
  · dsimp only
    refine (foldl_blockValidAt _ ?_ _ _ k).trans (blockValidAt_statusIte _ .LoadingPreload s k)
    intro s2 b k2
    split
    · exact loadBlock_blockValidAt b k2 false s2
    · rfl

theorem cleanupWindow_congr (s s2 : ModelState) (h : cfg s = cfg s2) :
    cleanupWindow s = cleanupWindow s2 := by
  unfold cfg at h
  simp only [Prod.mk.injEq] at h
  obtain ⟨h1, h2, h3, h4, h5, h6⟩ := h
  unfold cleanupWindow calculatePreloadRange getBlockIndex
  rw [h1, h2, h3, h4, h5, h6]

theorem cleanupBlocks_keeps_window (st : ModelState) (b : Int)
    (hw : inWindow st b) (hv : blockValidAt st b = true) :
    blockValidAt (cleanupBlocks st) b = true := by
  rcases hds : st.dataSource with _ | ds
  · have he : cleanupBlocks st = st := by
      unfold cleanupBlocks
      rw [hds]
    rw [he]
    exact hv
  · by_cases hlen : st.dataBlocks.length ≤ 10
    · rw [cleanupBlocks_of_small st ds hds hlen]
      exact hv
    · rw [cleanupBlocks_of_large st ds hds hlen]
      unfold blockValidAt at hv ⊢
      dsimp only
      rw [findEntry_filter_key ((blocksToKeep st).contains) b st.dataBlocks,
        if_pos (contains_blocksToKeep_of_window st b hw)]
      exact hv

theorem tdiv_le_pred_totalBlocks (rc bs x : Int) (hbs : 0 < bs) (h0 : 0 ≤ x)
    (h1 : x ≤ rc - 1) :
    x.tdiv bs ≤ (rc + bs - 1).tdiv bs - 1 := by
  rw [Int.tdiv_eq_ediv h0 (by omega), Int.tdiv_eq_ediv (by omega) (by omega)]
  have h2 : rc + bs - 1 = (rc - 1) + 1 * bs := by ring
  rw [h2, Int.add_mul_ediv_right _ _ (by omega : bs ≠ 0)]
  have h3 : x / bs ≤ (rc - 1) / bs := Int.ediv_le_ediv hbs h1
  omega

theorem afterLoadPhase_cfg (c : Int) (l : List Int) (C : Prop) [Decidable C]
    (s0 : ModelState) :
    cfg (preloadBlocks c (l.foldl (fun acc b => loadBlock b true acc)
      (if C then setLoadingStatus .LoadingVisible s0 else s0))) = cfg s0 :=
  (preloadBlocks_cfg _ _).trans ((foldl_cfg _ (fun s2 b2 => loadBlock_cfg b2 true s2) _ _).trans
    (statusIte_cfg _ _ _))

/-- Claim C1 (amended): after `setVisibleRange(start, end)` completes its
load-visible, prefetch, cleanup sequence, no resident block of the computed
prefetch window has been evicted; consequently, whenever the clamped visible
block range `[sb, eb]` is contained in the prefetch window around its center
block `(sb + eb) / 2` (first conjunct) — which holds in particular whenever
`eb - sb ≤ 2 * blocksBehind + 1` and `eb - sb ≤ 2 * blocksAhead` (second
conjunct) — no block whose row span intersects the clamped visible range is
evicted.  The unamended claim fails when the clamped visible block range is
not contained in the window (see the counterexample). -/
theorem setVisibleRange_keeps_contained_blocks :
    (∀ (st : ModelState) (ds : Source) (s e b : Int),
      st.dataSource = some ds → 0 < st.blockSize →
      max 0 s ≤ min (ds.rowCount - 1) e →
      (max 0 s).tdiv st.blockSize ≤ b →
      b ≤ (min (ds.rowCount - 1) e).tdiv st.blockSize →
      ((max 0 s).tdiv st.blockSize + (min (ds.rowCount - 1) e).tdiv st.blockSize).tdiv 2
          - st.preloadBlocksBehind ≤ (max 0 s).tdiv st.blockSize →
      (min (ds.rowCount - 1) e).tdiv st.blockSize
          ≤ ((max 0 s).tdiv st.blockSize + (min (ds.rowCount - 1) e).tdiv st.blockSize).tdiv 2
            + st.preloadBlocksAhead →
      blockValidAt st b = true →
      blockValidAt (setVisibleRange s e st) b = true)
    ∧ (∀ sb eb behind ahead : Int,
        0 ≤ sb → sb ≤ eb → eb - sb ≤ 2 * behind + 1 → eb - sb ≤ 2 * ahead →
        (sb + eb).tdiv 2 - behind ≤ sb ∧ eb ≤ (sb + eb).tdiv 2 + ahead) := by
  constructor
  · intro st ds s e b hds hbs hse hsb heb hcb hca hv
    have hsb0 : 0 ≤ (max 0 s).tdiv st.blockSize :=
      Int.tdiv_nonneg (le_max_left 0 s) (le_of_lt hbs)
    have htb : (min (ds.rowCount - 1) e).tdiv st.blockSize
        ≤ (ds.rowCount + st.blockSize - 1).tdiv st.blockSize - 1 :=
      tdiv_le_pred_totalBlocks ds.rowCount st.blockSize (min (ds.rowCount - 1) e) hbs
        (le_trans (le_max_left 0 s) hse) (min_le_left _ _)
    unfold setVisibleRange
    rw [hds]
    dsimp only
    rw [if_neg (not_lt.mpr hse)]
    rw [blockValidAt_statusIte]
    apply cleanupBlocks_keeps_window
    · unfold inWindow
      rw [cleanupWindow_congr _ _ (afterLoadPhase_cfg _ _ _ _)]
      unfold cleanupWindow calculatePreloadRange getBlockIndex
      dsimp only
      omega
    · rw [preloadBlocks_blockValidAt,
        foldl_blockValidAt _ (fun s2 b2 k2 => loadBlock_blockValidAt b2 k2 true s2),
        blockValidAt_statusIte]
      exact hv
  · intro sb eb behind ahead h0 hle hb ha
    have h2 : (sb + eb).tdiv 2 = (sb + eb) / 2 := Int.tdiv_eq_ediv (by omega) (by norm_num)
    rw [h2]
    omega
theorem cleanupBlocks_spec_witness :
    (10 < c4State.dataBlocks.length)
    ∧ inWindow c4State 5
    ∧ blockValidAt (cleanupBlocks c4State) 5 = true := by
  have h := (cleanupBlocks_spec c4State sourceC4 rfl).2 (by decide)
  exact ⟨by decide, by decide, h.1 5 (by decide) (by decide)⟩

theorem setVisibleRange_keeps_contained_blocks_witness :
    blockValidAt c4State 5 = true
    ∧ blockValidAt (setVisibleRange 4 6 c4State) 5 = true
    ∧ ((4 : Int) + 6).tdiv 2 - 2 ≤ 4 ∧ (6 : Int) ≤ ((4 : Int) + 6).tdiv 2 + 5 := by
  refine ⟨by decide, ?_, ?_⟩
  · exact setVisibleRange_keeps_contained_blocks.1 c4State sourceC4 4 6 5 rfl (by decide)
      (by decide) (by decide) (by decide) (by decide) (by decide) (by decide)
  · exact setVisibleRange_keeps_contained_blocks.2 4 6 2 5 (by decide) (by decide)
      (by decide) (by decide)

theorem modelReachable_foldl {α : Type} (g : ModelState → α → ModelState)
    (hg : ∀ s i, ModelStep s (g s i)) :
    ∀ (l : List α) (s : ModelState), ModelReachable s → ModelReachable (l.foldl g s)
  | [], _, h => h
  | i :: rest, s, h => modelReachable_foldl g hg rest (g s i) (ModelReachable.step h (hg s i))

theorem c1pre_reachable : ModelReachable c1pre :=
  modelReachable_foldl _ (fun s i => ModelStep.mergeStep s (i : Int) [[QVariant.str "x"]]) _ _
    (ModelReachable.step
      (ModelReachable.step
        (ModelReachable.step ModelReachable.init (ModelStep.sourceStep _ (some sourceC9)))
        (ModelStep.sizeStep _ 1))
      (ModelStep.rangeStep _ 0 30))

set_option maxRecDepth 10000 in
/-- Claim C1 counterexample: `c1pre` is a reachable state (31 one-row
blocks all resident, source set). The call `setVisibleRange 0 30` keeps the
visible range unchanged after clamping, yet its cleanup step evicts block 0,
whose row span contains visible row 0: the cleanup retains only the prefetch
window [14,17] plus the 10 most recently touched outside blocks, and the
31-block visible range does not fit. -/
theorem setVisibleRange_eviction_cex :
    ModelReachable c1pre
    ∧ blockValidAt c1pre 0 = true
    ∧ getBlockIndex 0 c1pre = 0
    ∧ blockValidAt (setVisibleRange 0 30 c1pre) 0 = false := by
  refine ⟨c1pre_reachable, by decide, by decide, by decide⟩



theorem keys_filter_keyPred (f : Int → Bool) (m : List (Int × β)) :
    (m.filter (fun p => f p.1)).map Prod.fst = (m.map Prod.fst).filter f := by
  induction m with
  | nil => rfl
  | cons p rest ih =>
    rw [List.filter_cons, List.map_cons, List.filter_cons]
    by_cases hf : f p.1 = true
    · rw [if_pos hf, if_pos hf, List.map_cons, ih]
    · rw [if_neg hf, if_neg hf, ih]

theorem hashRemove_keys (k : Int) (m : List (Int × β)) :
    (hashRemove k m).map Prod.fst = (m.map Prod.fst).filter (fun x => decide (x ≠ k)) := by
  unfold hashRemove
  exact keys_filter_keyPred (fun x => decide (x ≠ k)) m

theorem hashInsert_length (k : Int) (v : β) (m : List (Int × β)) :
    (hashInsert k v m).length = if hasKey k m then m.length else m.length + 1 := by
  unfold hashInsert
  by_cases h : hasKey k m
  · rw [if_pos h, if_pos h, List.length_map]
  · rw [if_neg h, if_neg h, List.length_append, List.length_cons, List.length_nil]

theorem filter_ne_of_not_mem (k : Int) (l : List Int) (h : k ∉ l) :
    l.filter (fun r => decide (r ≠ k)) = l := by
  induction l with
  | nil => rfl
  | cons a rest ih =>
    rw [List.filter_cons]
    have ha : a ≠ k := fun he => h (he ▸ List.mem_cons_self a rest)
    rw [if_pos (by simpa using ha), ih (fun hm => h (List.mem_cons_of_mem a hm))]

theorem filter_length_lt_of_mem (k : Int) (l : List Int) (hnd : l.Nodup) (hmem : k ∈ l) :
    (l.filter (fun x => decide (x ≠ k))).length + 1 = l.length := by
  induction l with
  | nil => simp at hmem
  | cons a rest ih =>
    rw [List.nodup_cons] at hnd
    rw [List.filter_cons]
    by_cases ha : a = k
    · subst ha
      rw [if_neg (by simp), filter_ne_of_not_mem a rest hnd.1, List.length_cons]
    · rw [if_pos (by simpa using ha), List.length_cons, List.length_cons]
      rcases List.mem_cons.mp hmem with h | h
      · exact absurd h.symm ha
      · rw [ih hnd.2 h]

theorem cacheInv_cacheRow (k : Int) (v : Row) (st : CsvState) (h : CacheInv st) :
    CacheInv (cacheRow k v st) := by
  obtain ⟨ho, hk, hiff, hlen⟩ := h
  unfold cacheRow
  dsimp only
  split
  case isTrue hfull =>
    rcases hoe : st.cacheOrder with _ | ⟨o, rest⟩
    · exfalso
      have : st.rowCache.map Prod.fst = [] := by
        rcases hre : st.rowCache.map Prod.fst with _ | ⟨x, xs⟩
        · rfl
        · have hx : x ∈ st.cacheOrder := (hiff x).mpr (hre ▸ List.mem_cons_self x xs)
          rw [hoe] at hx
          simp at hx
      have h0 : st.rowCache.length = 0 := by
        have := congrArg List.length this
        simpa using this
      rw [h0] at hfull
      omega
    · unfold cleanupCache
      dsimp only
      rw [hoe] at ho
      rw [List.nodup_cons] at ho
      have hremlen : (hashRemove o st.rowCache).length + 1 = st.rowCache.length := by
        have hmemo : o ∈ st.rowCache.map Prod.fst := (hiff o).mp (hoe ▸ List.mem_cons_self o rest)
        have := filter_length_lt_of_mem o (st.rowCache.map Prod.fst) hk hmemo
        calc (hashRemove o st.rowCache).length + 1
            = ((hashRemove o st.rowCache).map Prod.fst).length + 1 := by rw [List.length_map]
          _ = ((st.rowCache.map Prod.fst).filter (fun x => decide (x ≠ o))).length + 1 := by
              rw [hashRemove_keys]
          _ = (st.rowCache.map Prod.fst).length := this
          _ = st.rowCache.length := by rw [List.length_map]
      refine ⟨?_, ?_, ?_, ?_⟩
      · have : rest.filter (fun r => decide (r ≠ k)) |>.Nodup := List.Nodup.filter _ ho.2
        simp only [List.nodup_append]
        exact ⟨this, List.nodup_singleton k, by
          intro a ha hb
          simp only [List.mem_singleton] at hb
          subst hb
          exact absurd (List.mem_filter.mp ha).2 (by simp)⟩
      · exact nodup_keys_hashInsert k v _ (by
          rw [hashRemove_keys]
          exact List.Nodup.filter _ hk)
      · intro j
        rw [List.mem_append, List.mem_filter, List.mem_singleton]
        rw [keys_hashInsert]
        by_cases hjk : j = k
        · subst hjk
          constructor
          · intro _
            by_cases hc : hasKey j (hashRemove o st.rowCache)
            · rw [if_pos hc]
              exact (hasKey_iff j _).mp hc
            · rw [if_neg hc]
              simp
          · intro _
            right
            rfl
        · constructor
          · rintro (⟨hjr, _⟩ | hj)
            · have hjo : j ∈ st.cacheOrder := hoe ▸ List.mem_cons_of_mem o hjr
              have hjc : j ∈ st.rowCache.map Prod.fst := (hiff j).mp hjo
              have hjno : j ≠ o := fun he => ho.1 (he ▸ hjr)
              have hjrem : j ∈ (hashRemove o st.rowCache).map Prod.fst := by
                rw [hashRemove_keys, List.mem_filter]
                exact ⟨hjc, by simpa using hjno⟩
              by_cases hc : hasKey k (hashRemove o st.rowCache)
              · rw [if_pos hc]; exact hjrem
              · rw [if_neg hc]; exact List.mem_append_left _ hjrem
            · exact absurd hj hjk
          · intro hj
            left
            have hjrem : j ∈ (hashRemove o st.rowCache).map Prod.fst := by
              by_cases hc : hasKey k (hashRemove o st.rowCache)
              · rwa [if_pos hc] at hj
              · rw [if_neg hc] at hj
                rcases List.mem_append.mp hj with hj2 | hj2
                · exact hj2
                · simp at hj2
                  exact absurd hj2 hjk
            rw [hashRemove_keys, List.mem_filter] at hjrem
            have hjmem : j ∈ st.cacheOrder := (hiff j).mpr hjrem.1
            rw [hoe] at hjmem
            rcases List.mem_cons.mp hjmem with hj2 | hj2
            · exact absurd (by simpa using hjrem.2) (by simp [hj2])
            · exact ⟨hj2, by simpa using hjk⟩
      · rw [hashInsert_length]
        split
        · omega
        · omega
  case isFalse hfull =>
    dsimp only at hfull ⊢
    have hlt : st.rowCache.length < 50000 := by omega
    refine ⟨?_, nodup_keys_hashInsert k v _ hk, ?_, ?_⟩
    · simp only [List.nodup_append]
      refine ⟨List.Nodup.filter _ ho, List.nodup_singleton k, ?_⟩
      intro a ha hb
      simp only [List.mem_singleton] at hb
      subst hb
      exact absurd (List.mem_filter.mp ha).2 (by simp)
    · intro j
      rw [List.mem_append, List.mem_filter, List.mem_singleton, keys_hashInsert]
      by_cases hjk : j = k
      · subst hjk
        constructor
        · intro _
          by_cases hc : hasKey j st.rowCache
          · rw [if_pos hc]
            exact (hasKey_iff j _).mp hc
          · rw [if_neg hc]
            simp
        · intro _
          right
          rfl
      · constructor
        · rintro (⟨hjr, _⟩ | hj)
          · have hjc : j ∈ st.rowCache.map Prod.fst := (hiff j).mp hjr
            by_cases hc : hasKey k st.rowCache
            · rw [if_pos hc]; exact hjc
            · rw [if_neg hc]; exact List.mem_append_left _ hjc
          · exact absurd hj hjk
        · intro hj
          left
          have hjc : j ∈ st.rowCache.map Prod.fst := by
            by_cases hc : hasKey k st.rowCache
            · rwa [if_pos hc] at hj
            · rw [if_neg hc] at hj
              rcases List.mem_append.mp hj with hj2 | hj2
              · exact hj2
              · simp at hj2
                exact absurd hj2 hjk
          exact ⟨(hiff j).mpr hjc, by simpa using hjk⟩
    · rw [hashInsert_length]
      split
      · omega
      · omega



theorem cacheInv_getFromCache (k : Int) (st : CsvState) (h : CacheInv st) :
    CacheInv (getFromCache k st).2 := by
  obtain ⟨ho, hk, hiff, hlen⟩ := h
  unfold getFromCache
  rcases hfe : findEntry k st.rowCache with _ | d
  · exact ⟨ho, hk, hiff, hlen⟩
  · dsimp only
    have hkmem : k ∈ st.rowCache.map Prod.fst := by
      have := mem_of_findEntry st.rowCache k d hfe
      exact List.mem_map.mpr ⟨(k, d), this, rfl⟩
    refine ⟨?_, hk, ?_, hlen⟩
    · simp only [List.nodup_append]
      refine ⟨List.Nodup.filter _ ho, List.nodup_singleton k, ?_⟩
      intro a ha hb
      simp only [List.mem_singleton] at hb
      subst hb
      exact absurd (List.mem_filter.mp ha).2 (by simp)
    · intro j
      rw [List.mem_append, List.mem_filter, List.mem_singleton]
      by_cases hjk : j = k
      · subst hjk
        simp [hkmem]
      · constructor
        · rintro (⟨hjr, _⟩ | hj)
          · exact (hiff j).mp hjr
          · exact absurd hj hjk
        · intro hj
          exact Or.inl ⟨(hiff j).mpr hj, by simpa using hjk⟩

theorem ensureRowOffsetCalculated_cache (i : Int) (st : CsvState) :
    (ensureRowOffsetCalculated i st).2.rowCache = st.rowCache
    ∧ (ensureRowOffsetCalculated i st).2.cacheOrder = st.cacheOrder := by
  unfold ensureRowOffsetCalculated
  split
  · exact ⟨rfl, rfl⟩
  · split
    · exact ⟨rfl, rfl⟩
    · exact ⟨rfl, rfl⟩

theorem ensureRowOffsetsCalculated_cache (a b : Int) (st : CsvState) :
    (ensureRowOffsetsCalculated a b st).rowCache = st.rowCache
    ∧ (ensureRowOffsetsCalculated a b st).cacheOrder = st.cacheOrder := by
  unfold ensureRowOffsetsCalculated
  dsimp only
  generalize intRange (if st.hasHeader then a + 1 else a) (if st.hasHeader then b + 1 else b) = l
  induction l generalizing st with
  | nil => exact ⟨rfl, rfl⟩
  | cons i rest ih =>
    rw [List.foldl_cons]
    rcases ih ((ensureRowOffsetCalculated i st).2) with ⟨h1, h2⟩
    rcases ensureRowOffsetCalculated_cache i st with ⟨h3, h4⟩
    exact ⟨h1.trans h3, h2.trans h4⟩

theorem getLineFromMappedData_cache (i : Int) (st : CsvState) :
    (getLineFromMappedData i st).2.rowCache = st.rowCache
    ∧ (getLineFromMappedData i st).2.cacheOrder = st.cacheOrder := by
  unfold getLineFromMappedData
  split
  · exact ⟨rfl, rfl⟩
  · dsimp only
    split
    · rcases ensureRowOffsetCalculated_cache (i + 1) st with ⟨h1, h2⟩
      split
      · exact ⟨h1, h2⟩
      · split
        · exact ⟨h1, h2⟩
        · split
          · exact ⟨h1, h2⟩
          · exact ⟨h1, h2⟩
    · rcases ensureRowOffsetCalculated_cache i st with ⟨h1, h2⟩
      split
      · exact ⟨h1, h2⟩
      · split
        · exact ⟨h1, h2⟩
        · split
          · exact ⟨h1, h2⟩
          · exact ⟨h1, h2⟩

theorem calculateRowCount_cache (st : CsvState) :
    (calculateRowCount st).rowCache = st.rowCache
    ∧ (calculateRowCount st).cacheOrder = st.cacheOrder := by
  unfold calculateRowCount
  split
  · exact ⟨rfl, rfl⟩
  · dsimp only
    generalize (if st.rowOffsets.length > 1 then st.rowOffsets.getD 1 0 else 0) = cur
    by_cases hc : cur ≥ st.fileSize
    · rw [if_pos hc]
      exact ⟨rfl, rfl⟩
    · rw [if_neg hc]
      exact ⟨rfl, rfl⟩

theorem cacheInv_congr (st st2 : CsvState) (h1 : st2.rowCache = st.rowCache)
    (h2 : st2.cacheOrder = st.cacheOrder) (h : CacheInv st) : CacheInv st2 := by
  unfold CacheInv
  rw [h1, h2]
  exact h

theorem cacheInv_loadDataLoop (st : CsvState) (acc : List Row) (l : List Int)
    (h : CacheInv st) : CacheInv (loadDataLoop st acc l).2 := by
  induction l generalizing st acc with
  | nil => exact h
  | cons i rest ih =>
    unfold loadDataLoop
    rcases hgc : getFromCache i st with ⟨o, st1⟩
    have h1 : CacheInv st1 := by
      have hfc := cacheInv_getFromCache i st h
      rw [hgc] at hfc; exact hfc
    cases o with
    | some rowData => dsimp only; exact ih st1 (acc ++ [rowData]) h1
    | none =>
      dsimp only
      rcases hgl : getLineFromMappedData i st1 with ⟨ol, st2⟩
      have h2 : CacheInv st2 := by
        rcases getLineFromMappedData_cache i st1 with ⟨ha, hb⟩
        rw [hgl] at ha hb
        exact cacheInv_congr st1 st2 ha hb h1
      cases ol with
      | none => exact h2
      | some line =>
        dsimp only
        exact ih _ _ (cacheInv_cacheRow _ _ _ h2)

theorem cacheInv_loadData (startRow count : Int) (st : CsvState) (h : CacheInv st) :
    CacheInv (loadData startRow count st).2 := by
  have hcalc : CacheInv (calculateRowCount st) := by
    rcases calculateRowCount_cache st with ⟨h1, h2⟩
    exact cacheInv_congr st _ h1 h2 h
  unfold loadData
  split
  · exact h
  · dsimp only
    by_cases hrc : st.rowCount = -1
    · rw [if_pos hrc]
      split
      · exact hcalc
      · split
        · exact hcalc
        · split
          · exact hcalc
          · refine cacheInv_loadDataLoop _ _ _ ?_
            rcases ensureRowOffsetsCalculated_cache startRow
              ((startRow + count) ⊓ (calculateRowCount st).rowCount)
              (calculateRowCount st) with ⟨h1, h2⟩
            exact cacheInv_congr _ _ h1 h2 hcalc
    · rw [if_neg hrc]
      split
      · exact h
      · split
        · exact h
        · split
          · exact h
          · refine cacheInv_loadDataLoop _ _ _ ?_
            rcases ensureRowOffsetsCalculated_cache startRow
              ((startRow + count) ⊓ st.rowCount) st with ⟨h1, h2⟩
            exact cacheInv_congr _ _ h1 h2 h

theorem cacheInv_csvRowCount (st : CsvState) (h : CacheInv st) :
    CacheInv (csvRowCount st).2 := by
  unfold csvRowCount
  split
  · rcases calculateRowCount_cache st with ⟨h1, h2⟩
    dsimp only
    split
    · exact cacheInv_congr st _ h1 h2 h
    · exact cacheInv_congr st _ h1 h2 h
  · exact h

theorem cacheInv_csvNew (file : List Char) (hh : Bool) (d : Char) (m : Int) :
    CacheInv (csvNew file hh d m) := by
  have h1 : (csvNew file hh d m).rowCache = [] := by
    unfold csvNew
    dsimp only
    split
    · rfl
    · split <;> rfl
  have h2 : (csvNew file hh d m).cacheOrder = [] := by
    unfold csvNew
    dsimp only
    split
    · rfl
    · split <;> rfl
  exact ⟨by simp [h2], by simp [h1], by simp [h1, h2], by simp [h1]⟩

theorem csvReachable_cacheInv (st : CsvState) (h : CsvReachable st) : CacheInv st := by
  induction h with
  | new file hh d m => exact cacheInv_csvNew file hh d m
  | step hr hs ih =>
    cases hs with
    | loadStep startRow count => exact cacheInv_loadData startRow count _ ih
    | rowCountStep => exact cacheInv_csvRowCount _ ih

theorem cacheRow_fresh_not_full (k : Int) (v : Row) (st : CsvState)
    (hlen : st.rowCache.length < 50000)
    (hk : k ∉ st.rowCache.map Prod.fst)
    (hko : k ∉ st.cacheOrder) :
    (cacheRow k v st).rowCache.map Prod.fst = st.rowCache.map Prod.fst ++ [k]
    ∧ (cacheRow k v st).cacheOrder = st.cacheOrder ++ [k]
    ∧ (cacheRow k v st).rowCache.length = st.rowCache.length + 1 := by
  have hnotkey : ¬ hasKey k st.rowCache = true := fun h => hk ((hasKey_iff k st.rowCache).mp h)
  unfold cacheRow
  dsimp only
  rw [if_neg (by omega : ¬ ((st.rowCache.length : Int) ≥ (50000 : Int)))]
  dsimp only
  refine ⟨?_, ?_, ?_⟩
  · rw [keys_hashInsert, if_neg hnotkey]
  · rw [filter_ne_of_not_mem k st.cacheOrder hko]
  · rw [hashInsert_length, if_neg hnotkey]

theorem cacheRow_fresh_full (k : Int) (v : Row) (st : CsvState) (l : List Int)
    (hkeys : st.rowCache.map Prod.fst = l)
    (horder : st.cacheOrder = l)
    (hnd : l.Nodup)
    (hlenc : st.rowCache.length = 50000)
    (hk : k ∉ l) :
    (cacheRow k v st).rowCache.map Prod.fst = l.drop 1 ++ [k]
    ∧ (cacheRow k v st).cacheOrder = l.drop 1 ++ [k]
    ∧ (cacheRow k v st).rowCache.length = 50000 := by
  have hllen : l.length = 50000 := by rw [← hkeys, List.length_map, hlenc]
  cases l with
  | nil => simp at hllen
  | cons h0 t =>
    rw [List.nodup_cons] at hnd
    have hkt : k ∉ t := fun hm => hk (List.mem_cons_of_mem _ hm)
    unfold cacheRow
    dsimp only
    rw [if_pos (by omega : ((st.rowCache.length : Int) ≥ (50000 : Int)))]
    unfold cleanupCache
    dsimp only
    rw [horder]
    dsimp only
    have hkeys2 : (hashRemove h0 st.rowCache).map Prod.fst = t := by
      rw [hashRemove_keys, hkeys, List.filter_cons]
      rw [if_neg (by simp)]
      exact filter_ne_of_not_mem h0 t hnd.1
    have hnk2 : ¬ hasKey k (hashRemove h0 st.rowCache) = true :=
      fun hh => hkt (hkeys2 ▸ (hasKey_iff _ _).mp hh)
    have hrlen : (hashRemove h0 st.rowCache).length = t.length := by
      calc (hashRemove h0 st.rowCache).length
          = ((hashRemove h0 st.rowCache).map Prod.fst).length := (List.length_map _ _).symm
        _ = t.length := by rw [hkeys2]
    refine ⟨?_, ?_, ?_⟩
    · rw [keys_hashInsert, if_neg hnk2, hkeys2]
      simp
    · rw [filter_ne_of_not_mem k t hkt]
      simp
    · rw [hashInsert_length, if_neg hnk2, hrlen]
      simp only [List.length_cons] at hllen
      omega

theorem lru_fold (v : Row) (st : CsvState)
    (h1 : st.rowCache = []) (h2 : st.cacheOrder = []) :
    ∀ ks : List Int, ks.Nodup → ks.length ≤ 50000 →
    (cacheRowAll v ks st).rowCache.map Prod.fst = ks
    ∧ (cacheRowAll v ks st).cacheOrder = ks
    ∧ (cacheRowAll v ks st).rowCache.length = ks.length := by
  intro ks
  induction ks using List.reverseRecOn with
  | nil =>
    intro _ _
    simp [cacheRowAll, h1, h2]
  | append_singleton ks k ih =>
    intro hnd hlen
    have hnd' := List.nodup_append.mp hnd
    have hk : k ∉ ks := fun hm => hnd'.2.2 hm (List.mem_singleton_self k)
    simp only [List.length_append, List.length_cons, List.length_nil] at hlen
    obtain ⟨hkeys, horder, hlen2⟩ := ih hnd'.1 (by omega)
    have hstep := cacheRow_fresh_not_full k v (cacheRowAll v ks st)
      (by rw [hlen2]; omega) (by rw [hkeys]; exact hk) (by rw [horder]; exact hk)
    have hsplit : cacheRowAll v (ks ++ [k]) st = cacheRow k v (cacheRowAll v ks st) := by
      unfold cacheRowAll
      rw [List.foldl_append]
      rfl
    rw [hsplit]
    obtain ⟨s1, s2, s3⟩ := hstep
    refine ⟨?_, ?_, ?_⟩
    · rw [s1, hkeys]
    · rw [s2, horder]
    · rw [s3, hlen2]
      simp

/-- **C6 counterexample.** A `CsvDataSource` constructed with
`maxCacheSize = 1` still caches 2 rows after one `loadData(0, 2)` call:
the cache exceeds the bound configured at construction, because `cacheRow`
overwrites the bound with 50000 before its capacity check. -/
theorem rowCache_bound_counterexample :
    (csvNew file8 true ',' 1).maxCacheSize = 1
    ∧ (loadData 0 2 (csvNew file8 true ',' 1)).2.rowCache.length = 2 := by decide

/-- **C6.** Corrected cache invariant and LRU behaviour: over every reachable
`CsvDataSource` state the access-order list and the cache keys are duplicate-free
and in 1:1 correspondence and the cache never holds more than 50000 rows (the
hard-coded bound, not the constructed one); and inserting 50001 distinct fresh
rows into an initially empty cache evicts exactly the least-recently-used
(first-inserted) row, leaving the most-recently-used 50000 rows cached in
insertion order. -/
theorem rowCache_lru_corrected :
    (∀ st, CsvReachable st → CacheInv st)
    ∧ (∀ (v : Row) (ks : List Int) (k : Int) (st : CsvState),
        (ks ++ [k]).Nodup → ks.length = 50000 →
        st.rowCache = [] → st.cacheOrder = [] →
        (cacheRowAll v (ks ++ [k]) st).rowCache.map Prod.fst = ks.drop 1 ++ [k]
        ∧ (cacheRowAll v (ks ++ [k]) st).cacheOrder = ks.drop 1 ++ [k]
        ∧ (cacheRowAll v (ks ++ [k]) st).rowCache.length = 50000) := by
  refine ⟨csvReachable_cacheInv, ?_⟩
  intro v ks k st hnd hlen h1 h2
  have hnd' := List.nodup_append.mp hnd
  have hk : k ∉ ks := fun hm => hnd'.2.2 hm (List.mem_singleton_self k)
  obtain ⟨hkeys, horder, hlen2⟩ := lru_fold v st h1 h2 ks hnd'.1 (le_of_eq hlen)
  have hsplit : cacheRowAll v (ks ++ [k]) st = cacheRow k v (cacheRowAll v ks st) := by
    unfold cacheRowAll
    rw [List.foldl_append]
    rfl
  rw [hsplit]
  exact cacheRow_fresh_full k v _ ks hkeys horder hnd'.1 (by rw [hlen2, hlen]) hk

theorem rowCache_lru_corrected_witness :
    CsvReachable emptyCsv
    ∧ (lruKeys ++ [(50000 : Int)]).Nodup
    ∧ lruKeys.length = 50000
    ∧ emptyCsv.rowCache = []
    ∧ emptyCsv.cacheOrder = []
    ∧ CacheInv emptyCsv
    ∧ (cacheRowAll [] (lruKeys ++ [(50000 : Int)]) emptyCsv).cacheOrder
        = lruKeys.drop 1 ++ [(50000 : Int)] := by
  have hreach : CsvReachable emptyCsv := CsvReachable.new [] true ',' 10000
  have hinj : Function.Injective (fun (n : Nat) => (n : Int)) := fun a b hab => by
    simpa using hab
  have hmap : lruKeys ++ [(50000 : Int)] = (List.range 50001).map (fun (n : Nat) => (n : Int)) := by
    unfold lruKeys
    conv_rhs => rw [List.range_succ]
    rw [List.map_append]
    simp only [List.map_cons, List.map_nil, Nat.cast_ofNat]
  have hnd : (lruKeys ++ [(50000 : Int)]).Nodup := by
    rw [hmap]
    exact List.Nodup.map hinj (List.nodup_range 50001)
  have hlen : lruKeys.length = 50000 := by
    unfold lruKeys
    rw [List.length_map, List.length_range]
  exact ⟨hreach, hnd, hlen, rfl, rfl, rowCache_lru_corrected.1 emptyCsv hreach,
    (rowCache_lru_corrected.2 [] lruKeys 50000 emptyCsv hnd hlen rfl rfl).2.1⟩

/-- **C10.** Every `cacheRow` call sets the effective capacity to 50000 before
its capacity check, the constructed `maxCacheSize` has no influence on
`cacheRow`'s behaviour, the constructor does store the passed bound, and over
every reachable state the cache size stays at most 50000. -/
theorem cacheRow_overrides_maxCacheSize :
    (∀ (k : Int) (v : Row) (st : CsvState), (cacheRow k v st).maxCacheSize = 50000)
    ∧ (∀ (k : Int) (v : Row) (st : CsvState) (m1 m2 : Int),
        cacheRow k v { st with maxCacheSize := m1 }
          = cacheRow k v { st with maxCacheSize := m2 })
    ∧ (∀ (file : List Char) (hh : Bool) (d : Char) (m : Int),
        (csvNew file hh d m).maxCacheSize = m)
    ∧ (∀ st, CsvReachable st → st.rowCache.length ≤ 50000) := by
  refine ⟨?_, ?_, ?_, fun st h => (csvReachable_cacheInv st h).2.2.2⟩
  · intro k v st
    unfold cacheRow
    dsimp only
    split
    · unfold cleanupCache
      dsimp only
      split <;> rfl
    · rfl
  · intro k v st m1 m2
    rfl
  · intro file hh d m
    unfold csvNew
    dsimp only
    split
    · rfl
    · split
      · rfl
      · rfl

theorem cacheRow_overrides_maxCacheSize_witness :
    CsvReachable (csvNew [] false ';' 7)
    ∧ (cacheRow 3 [] (csvNew [] false ';' 7)).maxCacheSize = 50000
    ∧ (csvNew [] false ';' 7).maxCacheSize = 7
    ∧ (csvNew [] false ';' 7).rowCache.length ≤ 50000 := by
  have hreach : CsvReachable (csvNew [] false ';' 7) := CsvReachable.new [] false ';' 7
  exact ⟨hreach, cacheRow_overrides_maxCacheSize.1 3 [] _,
    cacheRow_overrides_maxCacheSize.2.2.1 [] false ';' 7,
    cacheRow_overrides_maxCacheSize.2.2.2 _ hreach⟩

/-- **C8.** For the comma-delimited file with header line id,name,score and
data lines 1,Alice,9.5 and 2,Bob,7.25, `headerData` (the `headers` field) is
correct, but `loadData(0, 2)` returns the first data row TWICE instead of the
two distinct rows: `ensureRowOffsetCalculated` starts scanning from the last
recorded offset and re-records that same offset, so the row-offset table
becomes [0, 14, 14, 14] and row 1 resolves to row 0's offset. The cells are
also plain text, never typed integers or reals. -/
theorem loadRows_roundtrip_bug :
    csv8.headers = ["id", "name", "score"]
    ∧ (loadData 0 2 csv8).1 =
        [[QVariant.str "1", QVariant.str "Alice", QVariant.str "9.5"],
         [QVariant.str "1", QVariant.str "Alice", QVariant.str "9.5"]]
    ∧ (loadData 0 2 csv8).1 ≠
        [[QVariant.str "1", QVariant.str "Alice", QVariant.str "9.5"],
         [QVariant.str "2", QVariant.str "Bob", QVariant.str "7.25"]]
    ∧ (loadData 0 2 csv8).2.rowOffsets = [0, 14, 14, 14] := by decide

end VTable
